import Mathlib

/-!
Verification of the jlink.online runtime-build pipeline.

This file embeds the core logic of the service (request validation,
release caching and download, Maven Central dependency resolution, and
the jlink invocation) as executable Lean definitions translated from the
Go source, and proves the stated properties about them.
-/

namespace Jlink

instance {ε α : Type} [DecidableEq ε] [DecidableEq α] : DecidableEq (Except ε α)
  | .error a, .error b =>
    if h : a = b then .isTrue (by rw [h]) else .isFalse (by intro hc; cases hc; exact h rfl)
  | .error _, .ok _ => .isFalse (by intro hc; cases hc)
  | .ok _, .error _ => .isFalse (by intro hc; cases hc)
  | .ok a, .ok b =>
    if h : a = b then .isTrue (by rw [h]) else .isFalse (by intro hc; cases hc; exact h rfl)

/-! ## String utilities

The Go code works on strings via `strings.Split`, `strings.TrimSuffix`,
`strings.Index` and `strconv.Atoi`.  We implement these on `List Char`
by structural recursion so they reduce in the kernel.
-/

/-- Split a character list at every occurrence of `c` (like Go `strings.Split`). -/
def splitCharList (c : Char) : List Char → List (List Char)
  | [] => [[]]
  | x :: xs =>
    let r := splitCharList c xs
    if x = c then [] :: r
    else match r with
      | [] => [[x]]
      | y :: ys => (x :: y) :: ys

/-- Split a string at every occurrence of `c`. -/
def splitChar (c : Char) (s : String) : List String :=
  (splitCharList c s.data).map (fun l => String.mk l)

/-- Join character lists with separator `c` (inverse of `splitCharList`). -/
def joinCharList (c : Char) : List (List Char) → List Char
  | [] => []
  | [x] => x
  | x :: y :: ys => x ++ c :: joinCharList c (y :: ys)

/-- Go `strings.TrimSuffix`: drop `suffix` if `s` ends with it, else `s`
unchanged (`HasSuffix` checked on the character lists). -/
def trimSuffix (s suffix : String) : String :=
  if s.data.reverse.take suffix.data.length = suffix.data.reverse then
    String.mk (s.data.take (s.data.length - suffix.data.length))
  else s

/-- Go `strings.Index(s, t) != -1` for a single-character `t`. -/
def containsChar (c : Char) (s : String) : Bool :=
  s.data.contains c

/-- The part of `s` before the first occurrence of `c` (Go `s[:strings.Index(s, c)]`),
or all of `s` when `c` does not occur. -/
def takeUntil (c : Char) (s : String) : String :=
  String.mk (s.data.takeWhile (fun x => x ≠ c))

/-- Go `strconv.Atoi`: an optional sign followed by a non-empty digit
string; anything else is a syntax error, and a value outside the 64-bit
`int` range `[-2^63, 2^63-1]` is a range error.  Either error makes the
result non-nil, which the callers here treat as rejection (`none`). -/
def atoi (s : String) : Option Int :=
  let core (l : List Char) : Option Int :=
    if l = [] then none
    else if l.all Char.isDigit then
      some (l.foldl (fun acc c => acc * 10 + (c.toNat - '0'.toNat)) 0)
    else none
  let signed : Option Int :=
    match s.data with
    | '+' :: rest => core rest
    | '-' :: rest => (core rest).map (fun n => -n)
    | l => core l
  match signed with
  | some v => if -(2 ^ 63) ≤ v ∧ v ≤ 2 ^ 63 - 1 then some v else none
  | none => none

/-! ## VersionResolver (src/jlink.go, src/util.go)

`getMajorVersion` cuts the version string at the first `.`, then at the
first `+`, and parses the remainder with `strconv.Atoi`.
-/

/-- The `getMajorVersion` helper from src/util.go. -/
def getMajorVersion (version : String) : Option Int :=
  let v1 := if containsChar '.' version then takeUntil '.' version else version
  let v2 := if containsChar '+' v1 then takeUntil '+' v1 else v1
  atoi v2

/-- A digit string denoting a nonzero number with no leading zero:
`[1-9][0-9]*` in the `versionCheck` regex of src/jlink.go. -/
def isNonzeroNum (s : String) : Bool :=
  match s.data with
  | [] => false
  | c :: cs => ('1' ≤ c && c ≤ '9') && cs.all Char.isDigit

/-- A component allowed in the middle of a dotted group: exactly `"0"`, or a
nonzero numeral (`\.0` and `\.[1-9][0-9]*` in the regex). -/
def isZeroOrNum (s : String) : Bool :=
  s = "0" || isNonzeroNum s

/-- The components after the head of a dotted group: the regex
`((\.0)*\.[1-9][0-9]*)*` generates exactly the comma of components drawn from
`{0} ∪ nonzero` whose last element (if any) is nonzero. -/
def tailOk : List String → Bool
  | [] => true
  | [x] => isNonzeroNum x
  | x :: y :: ys => isZeroOrNum x && tailOk (y :: ys)

/-- One dotted group `[1-9][0-9]*((\.0)*\.[1-9][0-9]*)*` of the
`versionCheck` regex, applied to its dot-split components. -/
def groupOk (parts : List String) : Bool :=
  match parts with
  | [] => false
  | p :: rest => isNonzeroNum p && tailOk rest

/-- The `versionCheck` regex of src/jlink.go:
`^[1-9][0-9]*((\.0)*\.[1-9][0-9]*)*(\+[1-9][0-9]*((\.0)*\.[1-9][0-9]*)*)?$`. -/
def versionCheckMatch (s : String) : Bool :=
  match splitChar '+' s with
  | [base] => groupOk (splitChar '.' base)
  | [base, build] => groupOk (splitChar '.' base) && groupOk (splitChar '.' build)
  | _ => false

/-! ## Request validation (handleRequest in src/jlink.go)

The other validation regexes are alternations of literals or simple
character classes and are embedded directly.
-/

/-- The `archCheck` regex: `^(x64|x32|ppc64|s390x|ppc64le|aarch64|arm)$`. -/
def archCheck (s : String) : Bool :=
  s = "x64" || s = "x32" || s = "ppc64" || s = "s390x" ||
  s = "ppc64le" || s = "aarch64" || s = "arm"

/-- The `platformCheck` regex: `^(linux|windows|mac|solaris|aix)$`. -/
def platformCheck (s : String) : Bool :=
  s = "linux" || s = "windows" || s = "mac" || s = "solaris" || s = "aix"

/-- A character matched by `\w` (ASCII): letter, digit or underscore. -/
def isWordChar (c : Char) : Bool :=
  c.isAlphanum || c = '_'

/-- The `moduleCheck` regex: `^[\w\.]+$`. -/
def moduleCheck (s : String) : Bool :=
  s ≠ "" && s.data.all (fun c => isWordChar c || c = '.')

/-- The `artifactCheck` regex `^[\w\.-]+:[\w\.-]+:[\w\.-]+$`: since `:` is not in
the character class, this is exactly three nonempty colon-separated parts
over `[\w\.-]`. -/
def artifactCheck (s : String) : Bool :=
  match splitChar ':' s with
  | [g, a, v] =>
    [g, a, v].all fun p =>
      p ≠ "" && p.data.all (fun c => isWordChar c || c = '.' || c = '-')
  | _ => false

/-- The machine-checkable rejection reasons of `handleRequest`. -/
inductive ValidationError where
  | badPlatform
  | badArch
  | badArtifact
  | badModule
  | badEndian
  | badImpl
  | invalidVersion
  deriving DecidableEq, Repr

/-- The network work `handleRequest` performs after validation: the two
release lookups (target and local).  A plan exists only when every
validation step passed, so a rejected request never reaches the network. -/
structure RequestPlan where
  targetArch : String
  targetPlatform : String
  implementation : String
  version : String
  endian : String
  modules : List String
  artifacts : List String
  deriving DecidableEq, Repr

/-- The endian-defaulting block of `handleRequest` (src/jlink.go lines
230-242): an empty endian is guessed from the architecture, then the
result is checked against `big`/`little`. -/
def resolveEndian (endian arch : String) : Except ValidationError String :=
  let e := if endian = "" then
      (if arch = "ppc64" || arch = "s390x" then "big" else "little")
    else endian
  if e ≠ "big" && e ≠ "little" then .error .badEndian else .ok e

/-- The validation phase of `handleRequest` (src/jlink.go lines 200-261),
in source order: platform, architecture, artifacts, modules, endian,
implementation, version regex, then major version.  On success it returns
the plan of lookups to perform; on failure no lookup ever happens. -/
def requestPlan (platform arch version endian implementation : String)
    (modules artifacts : List String) : Except ValidationError RequestPlan :=
  if ¬ platformCheck platform then .error .badPlatform
  else if ¬ archCheck arch then .error .badArch
  else if ¬ artifacts.all artifactCheck then .error .badArtifact
  else if ¬ modules.all moduleCheck then .error .badModule
  else match resolveEndian endian arch with
    | .error e => .error e
    | .ok endian1 =>
      if implementation ≠ "hotspot" && implementation ≠ "openj9" then .error .badImpl
      else if ¬ versionCheckMatch version then .error .invalidVersion
      else match getMajorVersion version with
        | none => .error .invalidVersion
        | some major =>
          if major < 9 then .error .invalidVersion
          else .ok ⟨arch, platform, implementation, version, endian1, modules, artifacts⟩

/-- Whether a version token passes validation, all other request fields
being held valid and fixed. -/
def versionAccepted (v : String) : Bool :=
  (requestPlan "linux" "x64" v "" "hotspot" ["java.base"] []).toBool

/-- The numeric grammar as the specification words it:
`MAJOR(.MINOR.PATCH...)?(+BUILD(.BUILDMINOR...)?)?` where every numeric
component has no leading zero.  This is the spec's wording, kept separate
from `versionCheckMatch`, which is translated from the code's regex. -/
def specNumComponent (s : String) : Bool :=
  s = "0" || isNonzeroNum s

/-- Dotted group per the specification's wording. -/
def specGroupOk (parts : List String) : Bool :=
  parts ≠ [] && parts.all specNumComponent

/-- The specification's numeric version grammar. -/
def specNumericGrammar (s : String) : Bool :=
  match splitChar '+' s with
  | [base] => specGroupOk (splitChar '.' base)
  | [base, build] => specGroupOk (splitChar '.' base) && specGroupOk (splitChar '.' build)
  | _ => false

/-- The three aliases named by the specification. -/
def versionAliases : List String := ["lts", "ea", "ga"]

/-- The parsed major version is at least 9 (`majorVersion < 9` rejection in
`handleRequest`), as a boolean. -/
def majorAtLeast9 (v : String) : Bool :=
  match getMajorVersion v with
  | some m => 9 ≤ m
  | none => false

/-! ## Version-ordering comparator

`compareJdkRelease` is exercised by `TestCompareJdkRelease` in
src/util_test.go and called by `cacheRelease` in the metadata cache, but its
definition is not among the provided sources.
-/

/-- Pad a sequence with zeros on the right up to length `n`. -/
def padTo (n : Nat) (xs : List Int) : List Int :=
  xs ++ List.replicate (n - xs.length) 0

/-- Left-to-right comparison of two integer sequences, returning 1, -1, or 0. -/
def lexCmp : List Int → List Int → Int
  | [], [] => 0
  | [], _ :: _ => -1
  | _ :: _, [] => 1
  | x :: xs, y :: ys => if y < x then 1 else if x < y then -1 else lexCmp xs ys

/-- Compare two integer sequences left to right, treating the shorter as
zero-padded on the right. -/
def cmpSeq (xs ys : List Int) : Int :=
  lexCmp (padTo (max xs.length ys.length) xs) (padTo (max xs.length ys.length) ys)

/-- The part of a version string before the first `+`. -/
def baseOf (s : String) : String :=
  match splitChar '+' s with
  | b :: _ => b
  | [] => ""

/-- The part of a version string after the first `+` (empty when absent). -/
def buildOf (s : String) : String :=
  match splitChar '+' s with
  | _ :: b :: _ => b
  | _ => ""

/-- The build component as a dot-separated sequence of integers; a
component that does not parse contributes 0 (`strconv.Atoi` result is used
with its error ignored in the reconciliation code). -/
def buildInts (s : String) : List Int :=
  (splitChar '.' s).map (fun p => (atoi p).getD 0)

/-- Modelled from the spec: `compareJdkRelease` (referenced by
src/util_test.go and by `cacheRelease` in src/maven_central.go, but not
defined in the provided sources).  Per §4.2: split each version string at
`+` into base+build; for two entries sharing the same base, compare the
build component as a dot-separated sequence of integers, left to right,
treating a shorter sequence as zero-padded on the right. -/
def compareJdkRelease (a b : String) : Int :=
  cmpSeq (buildInts (buildOf a)) (buildInts (buildOf b))

/-! ## RuntimeBuilder (jlink in src/jlink.go) -/

/-- Go `strings.Join` with a separator. -/
def joinStrings (sep : String) : List String → String
  | [] => ""
  | [x] => x
  | x :: y :: ys => x ++ sep ++ joinStrings sep (y :: ys)

/-- The base-module loop of `jlink` (src/jlink.go lines 324-334): scan for
`"java.base"` and append it when missing. -/
def effectiveModules (modules : List String) : List String :=
  if modules.contains "java.base" then modules else modules ++ ["java.base"]

/-- The argument list passed to the jlink executable by `exec.Command`
(src/jlink.go lines 378-394), after the base-module fixup. -/
def jlinkArgs (modulePath output endian : String) (modules : List String) : List String :=
  ["--compress=1", "--no-header-files", "--no-man-pages", "--strip-debug",
   "--endian", endian,
   "--module-path", modulePath,
   "--add-modules", joinStrings "," (effectiveModules modules),
   "--output", output]

/-! ## RuntimeStore (downloadRelease in src/adoptium.go)

The store keeps extracted runtimes in `RT_CACHE`; directory names derive
from the archive file name with its `.zip`/`.tar.gz` extension stripped.
Paths use `/` (the service container is Linux, so `os.PathSeparator` and
`filepath.FromSlash` are identities there).
-/

/-- Mirrors the Adoptium `Package` schema (src/adoptium.go). -/
structure AdoptiumPackage where
  name : String
  link : String
  deriving DecidableEq, Repr

/-- Mirrors the Adoptium `Binary` schema (src/adoptium.go). -/
structure AdoptiumBinary where
  architecture : String
  implementation : String
  platform : String
  package : AdoptiumPackage
  deriving DecidableEq, Repr

/-- The cache directory name: archive file name with extension stripped
(`strings.TrimSuffix(strings.TrimSuffix(name, ".zip"), ".tar.gz")`). -/
def cacheDirName (fileName : String) : String :=
  trimSuffix (trimSuffix fileName ".zip") ".tar.gz"

/-- The cache directory for a release (`runtimePath` in `downloadRelease`). -/
def runtimeCachePath (rtCache : String) (b : AdoptiumBinary) : String :=
  rtCache ++ "/" ++ cacheDirName b.package.name

/-- The handle returned to callers: `runtimePath + "/jdk-" + version`. -/
def runtimeHandlePath (rtCache : String) (b : AdoptiumBinary) (version : String) : String :=
  runtimeCachePath rtCache b ++ "/jdk-" ++ version

/-- Outcome of the archive HTTP GET: a transport error, or a response with
a status code. -/
inductive NetOutcome where
  | connError
  | status (code : Nat)
  deriving DecidableEq, Repr

/-- The error classes of `downloadRelease`, one per return path. -/
inductive DlErr where
  | transport
  | abnormalStatus (code : Nat)
  | writeFailed
  | extractFailed
  deriving DecidableEq, Repr

/-- Filesystem events on the cache directory, recorded so that the cleanup
behaviour (create-then-remove on extraction failure) is observable. -/
inductive FsEv where
  | createdDir (path : String)
  | removedDir (path : String)
  deriving DecidableEq, Repr

/-- The `downloadRelease` function (src/adoptium.go lines 89-132) as a function of the
set of existing cache directories and of the outcomes of its effectful
steps: `net` is the archive GET, `writeOk` covers `os.Create`/`io.Copy`
into the private temporary file, `extractOk` is `archiver.Unarchive`.
Returns the new cache-directory set, the events on the cache directory,
and the result.  The archive temporary file lives outside the cache and is
always removed (`defer os.RemoveAll(dir)`), so it is not tracked. -/
def downloadRelease (rtCache : String) (dirs : List String) (b : AdoptiumBinary)
    (version : String) (net : NetOutcome) (writeOk extractOk : Bool) :
    List String × List FsEv × Except DlErr String :=
  let runtimePath := runtimeCachePath rtCache b
  if dirs.contains runtimePath then
    (dirs, [], .ok (runtimeHandlePath rtCache b version))
  else
    match net with
    | .connError => (dirs, [], .error .transport)
    | .status code =>
      if code ≠ 200 then (dirs, [], .error (.abnormalStatus code))
      else if ¬ writeOk then (dirs, [], .error .writeFailed)
      else if extractOk then
        (runtimePath :: dirs, [.createdDir runtimePath], .ok (runtimeHandlePath rtCache b version))
      else
        (dirs, [.createdDir runtimePath, .removedDir runtimePath], .error .extractFailed)

/-! ## RuntimeStore under concurrency

`downloadRelease` runs its whole body holding the global `downloadLock`
(src/adoptium.go lines 49-51 and 90-91).  We model N concurrent callers as
an interleaved transition system: each task acquires the lock, checks the
cache, and either returns the cached handle or downloads and extracts
before releasing.  Tasks may request different descriptors; the lock is
the same for all of them (store-global, not per-descriptor).
-/

/-- Where a task is in the body of `downloadRelease`. -/
inductive TStatus where
  | idle
  | checking
  | downloading
  | extracting
  | done (result : String)
  deriving DecidableEq, Repr

/-- One caller: the descriptor it requested and its current position. -/
structure STask where
  desc : AdoptiumBinary
  status : TStatus
  deriving DecidableEq, Repr

/-- The shared store state: the tasks, the global lock, the cache
directories on disk, and logs of the downloads and extractions performed
(each entry is the cache path downloaded or extracted). -/
structure StoreState where
  tasks : List STask
  lock : Bool
  cachedDirs : List String
  downloads : List String
  extracts : List String
  deriving DecidableEq, Repr

/-- A task is inside the lock-protected body. -/
def isBody : TStatus → Bool
  | .checking | .downloading | .extracting => true
  | _ => false

/-- A task is between starting its download and finishing its extraction. -/
def isDE : TStatus → Bool
  | .downloading | .extracting => true
  | _ => false

/-- A task has returned. -/
def isDone : TStatus → Bool
  | .done _ => true
  | _ => false

/-- A task has an extraction in progress. -/
def isExtracting : TStatus → Bool
  | .extracting => true
  | _ => false

/-- The interleaving semantics of concurrent `downloadRelease` calls.
Each constructor advances one task; steps inside the body require the
lock, mirroring that the Go function holds `downloadLock` throughout. -/
inductive StoreStep (rtCache version : String) : StoreState → StoreState → Prop where
  | acquire (s : StoreState) (i : Nat) (d : AdoptiumBinary)
      (hi : s.tasks.get? i = some ⟨d, .idle⟩) (hl : s.lock = false) :
      StoreStep rtCache version s
        { s with tasks := s.tasks.set i ⟨d, .checking⟩, lock := true }
  | cacheHit (s : StoreState) (i : Nat) (d : AdoptiumBinary)
      (hi : s.tasks.get? i = some ⟨d, .checking⟩) (hl : s.lock = true)
      (hc : s.cachedDirs.contains (runtimeCachePath rtCache d) = true) :
      StoreStep rtCache version s
        { s with tasks := s.tasks.set i ⟨d, .done (runtimeHandlePath rtCache d version)⟩,
                 lock := false }
  | beginDownload (s : StoreState) (i : Nat) (d : AdoptiumBinary)
      (hi : s.tasks.get? i = some ⟨d, .checking⟩) (hl : s.lock = true)
      (hc : s.cachedDirs.contains (runtimeCachePath rtCache d) = false) :
      StoreStep rtCache version s
        { s with tasks := s.tasks.set i ⟨d, .downloading⟩,
                 downloads := runtimeCachePath rtCache d :: s.downloads }
  | beginExtract (s : StoreState) (i : Nat) (d : AdoptiumBinary)
      (hi : s.tasks.get? i = some ⟨d, .downloading⟩) (hl : s.lock = true) :
      StoreStep rtCache version s
        { s with tasks := s.tasks.set i ⟨d, .extracting⟩ }
  | finishExtract (s : StoreState) (i : Nat) (d : AdoptiumBinary)
      (hi : s.tasks.get? i = some ⟨d, .extracting⟩) (hl : s.lock = true) :
      StoreStep rtCache version s
        { s with tasks := s.tasks.set i ⟨d, .done (runtimeHandlePath rtCache d version)⟩,
                 lock := false,
                 cachedDirs := runtimeCachePath rtCache d :: s.cachedDirs,
                 extracts := runtimeCachePath rtCache d :: s.extracts }

/-- Reflexive-transitive closure of `StoreStep`. -/
inductive StoreReach (rtCache version : String) : StoreState → StoreState → Prop where
  | refl (s : StoreState) : StoreReach rtCache version s s
  | tail {s t u : StoreState} :
      StoreReach rtCache version s t → StoreStep rtCache version t u →
      StoreReach rtCache version s u

/-- N callers all requesting descriptor `d`, against a cold store. -/
def storeInit (n : Nat) (d : AdoptiumBinary) : StoreState :=
  ⟨List.replicate n ⟨d, .idle⟩, false, [], [], []⟩

/-! ## DependencyResolver (downloadArtifacts in src/maven_central.go)

The resolver is recursive with no structural bound, so it is embedded with
explicit fuel: `none` means the computation was cut off (the surrogate for
non-termination), `some` is an actual result of the Go function.
-/

/-- A `dependency` element of a POM (src/maven_central.go). -/
structure MavenDep where
  groupId : String
  artifactId : String
  version : String
  scope : String
  deriving DecidableEq, Repr

/-- A G:A:V coordinate. -/
structure MavenCoord where
  group : String
  artifact : String
  version : String
  deriving DecidableEq, Repr

/-- One artifact hosted by the upstream repository: its coordinate and the
dependency list of its POM.  A coordinate with an entry has both its jar
and its POM available; any other coordinate yields a download failure. -/
structure PomEntry where
  coord : MavenCoord
  deps : List MavenDep
  deriving DecidableEq, Repr

/-- The upstream repository contents (finite, as any real repository is). -/
abbrev MavenRepo := List PomEntry

/-- Look up an artifact's POM dependency list. -/
def repoLookup (repo : MavenRepo) (g a v : String) : Option (List MavenDep) :=
  match repo.find? (fun e => e.coord = ⟨g, a, v⟩) with
  | some e => some e.deps
  | none => none

/-- The jar file name checked and written under the output directory:
`fmt.Sprintf("%s-%s.jar", gav[1], gav[2])`. -/
def jarFileName (a v : String) : String := a ++ "-" ++ v ++ ".jar"

/-- Go `strings.ReplaceAll(gav[0], ".", "/")`. -/
def groupPath (g : String) : String :=
  String.mk (g.data.map (fun c => if c = '.' then '/' else c))

/-- The repository base URL for a coordinate. -/
def mavenBase (g a v : String) : String :=
  "https://repo1.maven.org/maven2/" ++ groupPath g ++ "/" ++ a ++ "/" ++ v

/-- The jar URL. -/
def jarUrl (g a v : String) : String :=
  mavenBase g a v ++ "/" ++ a ++ "-" ++ v ++ ".jar"

/-- The POM URL. -/
def pomUrl (g a v : String) : String :=
  mavenBase g a v ++ "/" ++ a ++ "-" ++ v ++ ".pom"

/-- Go `strings.Split(artifact, ":")` followed by the length-3 check. -/
def parseGav (s : String) : Option (String × String × String) :=
  match splitChar ':' s with
  | [g, a, v] => some (g, a, v)
  | _ => none

/-- Go `fmt.Sprintf("%s:%s:%s", ...)` used to queue a dependency. -/
def gavStr (g a v : String) : String := g ++ ":" ++ a ++ ":" ++ v

/-- The coordinate string of a declared dependency. -/
def depGav (d : MavenDep) : String := gavStr d.groupId d.artifactId d.version

/-- The dependency strings queued for recursion: every declared dependency
whose scope is not exactly `"test"`. -/
def nonTestDeps (deps : List MavenDep) : List String :=
  (deps.filter (fun d => d.scope ≠ "test")).map depGav

/-- The resolver's observable state: the jar files present under the
output directory, the URLs fetched from the network, and the coordinates
for which a network fetch was attempted. -/
structure MavenSt where
  files : List String
  fetchedUrls : List String
  fetchedCoords : List MavenCoord
  deriving DecidableEq, Repr

/-- The error classes of `downloadArtifacts`. -/
inductive MavenErr where
  | invalidCoord (s : String)
  | fetchFailed (url : String)
  deriving DecidableEq, Repr

/-- The `downloadArtifacts` function (src/maven_central.go lines 34-76) with fuel.
For each coordinate: parse G:A:V; skip if the jar already exists under the
output directory; otherwise download the jar (creating the file), download
and parse the POM, queue the non-test dependencies, recurse into them, and
continue with the rest of the list.  Any failure aborts with an error. -/
def downloadArtifacts (repo : MavenRepo) :
    Nat → MavenSt → List String → Option (MavenSt × Except MavenErr Unit)
  | 0, _, _ => none
  | _ + 1, st, [] => some (st, .ok ())
  | fuel + 1, st, artifact :: rest =>
    match parseGav artifact with
    | none => some (st, .error (.invalidCoord artifact))
    | some (g, a, v) =>
      if st.files.contains (jarFileName a v) then
        downloadArtifacts repo fuel st rest
      else
        match repoLookup repo g a v with
        | none =>
          some ({ st with fetchedUrls := jarUrl g a v :: st.fetchedUrls,
                          fetchedCoords := ⟨g, a, v⟩ :: st.fetchedCoords },
                .error (.fetchFailed (jarUrl g a v)))
        | some deps =>
          let st1 : MavenSt :=
            ⟨jarFileName a v :: st.files,
             pomUrl g a v :: jarUrl g a v :: st.fetchedUrls,
             ⟨g, a, v⟩ :: st.fetchedCoords⟩
          match downloadArtifacts repo fuel st1 (nonTestDeps deps) with
          | none => none
          | some (st2, .error e) => some (st2, .error e)
          | some (st2, .ok ()) => downloadArtifacts repo fuel st2 rest

/-- Coordinates reachable from a request list through non-test dependency
edges: the parsed request coordinates, closed under following declared
dependencies whose scope is not `"test"`. -/
inductive ReachNT (repo : MavenRepo) (roots : List String) : MavenCoord → Prop where
  | root {s : String} {c : MavenCoord} :
      s ∈ roots → parseGav s = some (c.group, c.artifact, c.version) →
      ReachNT repo roots c
  | step {c : MavenCoord} {deps : List MavenDep} {d : MavenDep} :
      ReachNT repo roots c →
      repoLookup repo c.group c.artifact c.version = some deps →
      d ∈ deps → d.scope ≠ "test" →
      ReachNT repo roots ⟨d.groupId, d.artifactId, d.version⟩

/-- The jar names hosted by the repository (an upper bound for what a run
can add to the output directory). -/
def repoJarNames (repo : MavenRepo) : List String :=
  repo.map (fun e => jarFileName e.coord.artifact e.coord.version)

/-- How many repository jars are not yet present: the termination measure
of the resolver. -/
def missingCount (repo : MavenRepo) (st : MavenSt) : Nat :=
  ((repoJarNames repo).filter (fun j => decide (j ∉ st.files))).length

/-- Concrete repository for the scope-filtering analysis: `b` is declared
with scope `"test"` by `a` but with default scope by `c`. -/
def repoDual : MavenRepo :=
  [⟨⟨"g", "a", "1"⟩, [⟨"g", "b", "1", "test"⟩, ⟨"g", "c", "1", ""⟩]⟩,
   ⟨⟨"g", "c", "1"⟩, [⟨"g", "b", "1", ""⟩]⟩,
   ⟨⟨"g", "b", "1"⟩, []⟩]

/-- Concrete repository whose dependency graph is a two-cycle at the
artifact-coordinate level: `a` depends on `b` and `b` depends on `a`. -/
def repoCyc : MavenRepo :=
  [⟨⟨"g", "a", "1"⟩, [⟨"g", "b", "1", "compile"⟩]⟩,
   ⟨⟨"g", "b", "1"⟩, [⟨"g", "a", "1", "compile"⟩]⟩]

/-- The state produced by resolving `g:a:1` against `repoDual` from an
empty output directory. -/
def stDualFinal : MavenSt :=
  ⟨["b-1.jar", "c-1.jar", "a-1.jar"],
   [pomUrl "g" "b" "1", jarUrl "g" "b" "1",
    pomUrl "g" "c" "1", jarUrl "g" "c" "1",
    pomUrl "g" "a" "1", jarUrl "g" "a" "1"],
   [⟨"g", "b", "1"⟩, ⟨"g", "c", "1"⟩, ⟨"g", "a", "1"⟩]⟩

/-- Concrete release descriptor for the concurrency witness run. -/
def witBinary : AdoptiumBinary :=
  ⟨"x64", "hotspot", "linux", ⟨"jdk.tar.gz", "http://x"⟩⟩

/-- Final state of the one-caller witness run: one download, one
extraction, the handle returned. -/
def witFinal : StoreState :=
  ⟨[⟨witBinary, .done (runtimeHandlePath "/rc" witBinary "11.0.8+10")⟩], false,
   [runtimeCachePath "/rc" witBinary], [runtimeCachePath "/rc" witBinary],
   [runtimeCachePath "/rc" witBinary]⟩

/-! # Theorems -/

/-! ## Splitting utilities -/

theorem splitCharList_ne_nil (c : Char) (l : List Char) : splitCharList c l ≠ [] := by
  cases l with
  | nil => simp [splitCharList]
  | cons x xs =>
    simp only [splitCharList]
    by_cases h : x = c
    · simp [h]
    · simp only [if_neg h]
      cases splitCharList c xs <;> simp

theorem joinCharList_splitCharList (c : Char) (l : List Char) :
    joinCharList c (splitCharList c l) = l := by
  induction l with
  | nil => rfl
  | cons x xs ih =>
    simp only [splitCharList]
    by_cases h : x = c
    · subst h
      simp only [if_pos rfl]
      cases hr : splitCharList x xs with
      | nil => exact absurd hr (splitCharList_ne_nil x xs)
      | cons y ys =>
        have hx : joinCharList x (splitCharList x xs) = xs := ih
        rw [hr] at hx
        simp [joinCharList, hx]
    · simp only [if_neg h]
      cases hr : splitCharList c xs with
      | nil => exact absurd hr (splitCharList_ne_nil c xs)
      | cons y ys =>
        have hx : joinCharList c (splitCharList c xs) = xs := ih
        rw [hr] at hx
        cases ys with
        | nil => simpa [joinCharList] using hx
        | cons z zs =>
          simp only [joinCharList] at hx ⊢
          simp [hx]

/-! ## C9 — jlink invocation arguments -/

/-- C9 (counterexample): the module-linking tool is not invoked with
zero-level (or configurable) compression: the first argument is the
constant `--compress=1`, and `--compress=0` never appears. -/
theorem jlinkArgs_compress_level_one :
    (jlinkArgs "/rt/jmods:/m2" "/ws/out" "little" ["java.base"]).get? 0 =
      some "--compress=1" ∧
    (jlinkArgs "/rt/jmods:/m2" "/ws/out" "little" ["java.base"]).contains "--compress=0" =
      false := by
  constructor
  · rfl
  · decide

/-- C9 (amended): every invocation of the module-linking tool passes
exactly, in order: compression level 1, suppression of header files,
suppression of manual pages, debug-info stripping, the explicit target
endianness, the computed module path, the comma-joined full module list
(with `java.base` ensured), and the fresh output directory. -/
theorem jlinkArgs_exact (modulePath output endian : String) (modules : List String) :
    jlinkArgs modulePath output endian modules =
      ["--compress=1", "--no-header-files", "--no-man-pages", "--strip-debug",
       "--endian", endian,
       "--module-path", modulePath,
       "--add-modules", joinStrings "," (effectiveModules modules),
       "--output", output] := rfl

/-! ## C6 — the effective module list always contains java.base -/

/-- C6: the `--add-modules` argument is the comma-join of an effective
module list containing `"java.base"`: the list is passed unchanged when it
already contains `"java.base"`, and `"java.base"` is appended otherwise. -/
theorem jlink_add_modules_java_base (modules : List String) :
    "java.base" ∈ effectiveModules modules ∧
    ("java.base" ∈ modules → effectiveModules modules = modules) ∧
    ("java.base" ∉ modules → effectiveModules modules = modules ++ ["java.base"]) ∧
    ∀ modulePath output endian,
      (jlinkArgs modulePath output endian modules).get? 9 =
        some (joinStrings "," (effectiveModules modules)) := by
  refine ⟨?_, ?_, ?_, ?_⟩
  · by_cases h : "java.base" ∈ modules
    · simp [effectiveModules, h]
    · simp [effectiveModules, h]
  · intro h; simp [effectiveModules, h]
  · intro h; simp [effectiveModules, h]
  · intro modulePath output endian; rfl

/-- Witness for C6 at a concrete module list lacking `java.base`. -/
theorem jlink_add_modules_java_base_witness :
    "java.base" ∈ effectiveModules ["java.desktop"] ∧
    effectiveModules ["java.desktop"] = ["java.desktop"] ++ ["java.base"] ∧
    (jlinkArgs "/mp" "/out" "little" ["java.desktop"]).get? 9 =
      some (joinStrings "," (effectiveModules ["java.desktop"])) :=
  ⟨(jlink_add_modules_java_base ["java.desktop"]).1,
   (jlink_add_modules_java_base ["java.desktop"]).2.2.1 (by decide),
   (jlink_add_modules_java_base ["java.desktop"]).2.2.2 "/mp" "/out" "little"⟩

/-! ## C10 — endian defaulting -/

/-- C10: a request with an empty endian parameter is never rejected by
endian validation; the effective endianness defaults to `"big"` for
`ppc64` and `s390x` and to `"little"` for every other valid
architecture. -/
theorem endian_default_by_arch (arch : String) (h : archCheck arch = true) :
    resolveEndian "" arch =
      .ok (if arch = "ppc64" ∨ arch = "s390x" then "big" else "little") := by
  simp only [archCheck, Bool.or_eq_true, decide_eq_true_eq] at h
  rcases h with ((((((h | h) | h) | h) | h) | h) | h) <;> subst h <;> decide

/-- Witness for C10 at `ppc64` (defaults big) and `x64` (defaults little). -/
theorem endian_default_by_arch_witness :
    (archCheck "ppc64" = true ∧
      resolveEndian "" "ppc64" =
        .ok (if "ppc64" = "ppc64" ∨ "ppc64" = "s390x" then "big" else "little")) ∧
    (archCheck "x64" = true ∧
      resolveEndian "" "x64" =
        .ok (if "x64" = "ppc64" ∨ "x64" = "s390x" then "big" else "little")) :=
  ⟨⟨by decide, endian_default_by_arch "ppc64" (by decide)⟩,
   ⟨by decide, endian_default_by_arch "x64" (by decide)⟩⟩

/-! ## C3 — downloadRelease failure handling -/

/-- C3: against a cold cache entry, (i) an extraction failure removes the
partially-created cache directory (created then removed in the event log),
returns an error, and leaves the cache exactly as before, so that (ii) a
subsequent call retries cleanly and succeeds; and (iii) any download
failure — transport error, non-200 status, or a failure writing the
temporary archive — returns an error with the cache directory never
created. -/
theorem downloadRelease_failure_cleanup (rtCache : String) (dirs : List String)
    (b : AdoptiumBinary) (version : String)
    (hcold : dirs.contains (runtimeCachePath rtCache b) = false) :
    (downloadRelease rtCache dirs b version (.status 200) true false =
      (dirs, [.createdDir (runtimeCachePath rtCache b),
              .removedDir (runtimeCachePath rtCache b)], .error .extractFailed)) ∧
    (downloadRelease rtCache dirs b version (.status 200) true true =
      (runtimeCachePath rtCache b :: dirs, [.createdDir (runtimeCachePath rtCache b)],
       .ok (runtimeHandlePath rtCache b version))) ∧
    (∀ writeOk extractOk,
      downloadRelease rtCache dirs b version .connError writeOk extractOk =
        (dirs, [], .error .transport)) ∧
    (∀ code, code ≠ 200 → ∀ writeOk extractOk,
      downloadRelease rtCache dirs b version (.status code) writeOk extractOk =
        (dirs, [], .error (.abnormalStatus code))) ∧
    (∀ extractOk,
      downloadRelease rtCache dirs b version (.status 200) false extractOk =
        (dirs, [], .error .writeFailed)) := by
  have hmem : runtimeCachePath rtCache b ∉ dirs := by simpa using hcold
  refine ⟨?_, ?_, ?_, ?_, ?_⟩
  · simp [downloadRelease, hmem]
  · simp [downloadRelease, hmem]
  · intro writeOk extractOk; simp [downloadRelease, hmem]
  · intro code hc writeOk extractOk; simp [downloadRelease, hmem, hc]
  · intro extractOk; simp [downloadRelease, hmem]

/-! ## Comparator lemmas -/

theorem lexCmp_refl (xs : List Int) : lexCmp xs xs = 0 := by
  induction xs with
  | nil => rfl
  | cons x xs ih => simp [lexCmp, ih]

theorem lexCmp_antisymm (xs ys : List Int) : lexCmp xs ys = -lexCmp ys xs := by
  induction xs generalizing ys with
  | nil => cases ys <;> simp [lexCmp]
  | cons x xs ih =>
    cases ys with
    | nil => simp [lexCmp]
    | cons y ys =>
      simp only [lexCmp]
      by_cases hyx : y < x
      · rw [if_pos hyx, if_neg (show ¬ x < y by omega), if_pos hyx]
        decide
      · rw [if_neg hyx]
        by_cases hxy : x < y
        · rw [if_pos hxy, if_pos hxy]
        · rw [if_neg hxy, if_neg hxy, if_neg hyx]
          exact ih ys

theorem lexCmp_trans_one (xs ys zs : List Int)
    (hxy : xs.length = ys.length) (hyz : ys.length = zs.length)
    (h1 : lexCmp xs ys = 1) (h2 : lexCmp ys zs = 1) : lexCmp xs zs = 1 := by
  induction xs generalizing ys zs with
  | nil =>
    cases ys with
    | nil => simp [lexCmp] at h1
    | cons y ys => simp at hxy
  | cons x xs ih =>
    cases ys with
    | nil => simp at hxy
    | cons y ys =>
      cases zs with
      | nil => simp at hyz
      | cons z zs =>
        simp only [lexCmp] at h1 h2 ⊢
        by_cases hyx : y < x
        · rw [if_pos hyx] at h1
          by_cases hzy : z < y
          · rw [if_pos (show z < x by omega)]
          · rw [if_neg hzy] at h2
            by_cases hyz2 : y < z
            · rw [if_pos hyz2] at h2; cases h2
            · rw [if_neg hyz2] at h2
              have hzx : z < x := by omega
              rw [if_pos hzx]
        · rw [if_neg hyx] at h1
          by_cases hxy2 : x < y
          · rw [if_pos hxy2] at h1; cases h1
          · rw [if_neg hxy2] at h1
            by_cases hzy : z < y
            · rw [if_pos (show z < x by omega)]
            · rw [if_neg hzy] at h2
              by_cases hyz2 : y < z
              · rw [if_pos hyz2] at h2; cases h2
              · rw [if_neg hyz2] at h2
                rw [if_neg (show ¬ z < x by omega), if_neg (show ¬ x < z by omega)]
                exact ih ys zs (by simpa using hxy) (by simpa using hyz) h1 h2

theorem padTo_length (n : Nat) (xs : List Int) :
    (padTo n xs).length = max xs.length n := by
  simp [padTo]
  omega

theorem lexCmp_append_replicate (k : Nat) (xs ys : List Int)
    (h : xs.length = ys.length) :
    lexCmp (xs ++ List.replicate k 0) (ys ++ List.replicate k 0) = lexCmp xs ys := by
  induction xs generalizing ys with
  | nil =>
    cases ys with
    | nil =>
      simp only [List.nil_append]
      rw [lexCmp_refl]
      rfl
    | cons y ys => simp at h
  | cons x xs ih =>
    cases ys with
    | nil => simp at h
    | cons y ys =>
      rw [List.cons_append, List.cons_append]
      show (if y < x then (1 : Int) else if x < y then -1
            else lexCmp (xs ++ List.replicate k 0) (ys ++ List.replicate k 0)) =
          (if y < x then 1 else if x < y then -1 else lexCmp xs ys)
      rw [ih ys (by simpa using h)]

theorem padTo_padTo (N n : Nat) (xs : List Int) (h : n ≤ N) :
    padTo N (padTo n xs) = padTo N xs := by
  simp only [padTo, List.length_append, List.length_replicate, List.append_assoc,
    ← List.replicate_add]
  congr 2
  omega

theorem cmpSeq_eq_lexCmp_pad (m : Nat) (xs ys : List Int)
    (hx : xs.length ≤ m) (hy : ys.length ≤ m) :
    lexCmp (padTo m xs) (padTo m ys) = cmpSeq xs ys := by
  set L := max xs.length ys.length with hL
  have hLm : L ≤ m := by omega
  have hxs : padTo m xs = padTo L xs ++ List.replicate (m - L) 0 := by
    simp only [padTo, List.append_assoc, ← List.replicate_add]
    congr 2
    omega
  have hys : padTo m ys = padTo L ys ++ List.replicate (m - L) 0 := by
    simp only [padTo, List.append_assoc, ← List.replicate_add]
    congr 2
    omega
  rw [hxs, hys, lexCmp_append_replicate]
  · rfl
  · rw [padTo_length, padTo_length]
    omega

theorem cmpSeq_refl (xs : List Int) : cmpSeq xs xs = 0 := by
  simp [cmpSeq, lexCmp_refl]

theorem cmpSeq_antisymm (xs ys : List Int) : cmpSeq xs ys = -cmpSeq ys xs := by
  unfold cmpSeq
  rw [lexCmp_antisymm, Nat.max_comm]

theorem cmpSeq_trans_one (xs ys zs : List Int)
    (h1 : cmpSeq xs ys = 1) (h2 : cmpSeq ys zs = 1) : cmpSeq xs zs = 1 := by
  set N := max (max xs.length ys.length) zs.length with hN
  have e1 : lexCmp (padTo N xs) (padTo N ys) = cmpSeq xs ys :=
    cmpSeq_eq_lexCmp_pad N xs ys (by omega) (by omega)
  have e2 : lexCmp (padTo N ys) (padTo N zs) = cmpSeq ys zs :=
    cmpSeq_eq_lexCmp_pad N ys zs (by omega) (by omega)
  have e3 : lexCmp (padTo N xs) (padTo N zs) = cmpSeq xs zs :=
    cmpSeq_eq_lexCmp_pad N xs zs (by omega) (by omega)
  rw [← e3]
  refine lexCmp_trans_one _ _ _ ?_ ?_ (by rw [e1]; exact h1) (by rw [e2]; exact h2)
  · rw [padTo_length, padTo_length]; omega
  · rw [padTo_length, padTo_length]; omega

theorem cmpSeq_padTo_invariant (n : Nat) (xs ys : List Int) :
    cmpSeq (padTo n xs) (padTo n ys) = cmpSeq xs ys := by
  unfold cmpSeq
  set M := max (padTo n xs).length (padTo n ys).length with hM
  have hx : xs.length ≤ M := by
    have := padTo_length n xs
    omega
  have hy : ys.length ≤ M := by
    have := padTo_length n ys
    omega
  have hn : n ≤ M := by
    have := padTo_length n xs
    omega
  rw [padTo_padTo M n xs hn, padTo_padTo M n ys hn]
  exact cmpSeq_eq_lexCmp_pad M xs ys hx hy

/-! ## C7 — the version-ordering comparator -/

/-- C7: on version strings with equal base (the part before `+`),
`compareJdkRelease` compares build components as dot-separated integer
sequences, zero-padding the shorter on the right, and satisfies
`compare(a,a)=0`, antisymmetry, and transitivity; explicitly zero-padding
the sequences does not change the result. -/
theorem compareJdkRelease_comparator_laws (a b c : String)
    (hab : baseOf a = baseOf b) (hbc : baseOf b = baseOf c) :
    compareJdkRelease a a = 0 ∧
    compareJdkRelease a b = -compareJdkRelease b a ∧
    (compareJdkRelease a b = 1 → compareJdkRelease b c = 1 →
      compareJdkRelease a c = 1) ∧
    ∀ n, cmpSeq (padTo n (buildInts (buildOf a))) (padTo n (buildInts (buildOf b))) =
      compareJdkRelease a b := by
  refine ⟨cmpSeq_refl _, cmpSeq_antisymm _ _, cmpSeq_trans_one _ _ _, ?_⟩
  intro n
  exact cmpSeq_padTo_invariant n _ _

/-- Witness for C7 at the values of `TestCompareJdkRelease`. -/
theorem compareJdkRelease_comparator_laws_witness :
    baseOf "1.2.3+11" = baseOf "1.2.3+10.1" ∧
    compareJdkRelease "1.2.3+11" "1.2.3+11" = 0 ∧
    compareJdkRelease "1.2.3+11" "1.2.3+10" = 1 :=
  ⟨by decide,
   (compareJdkRelease_comparator_laws "1.2.3+11" "1.2.3+10.1" "1.2.3+10"
      (by decide) (by decide)).1,
   (compareJdkRelease_comparator_laws "1.2.3+11" "1.2.3+10.1" "1.2.3+10"
      (by decide) (by decide)).2.2.1 (by decide) (by decide)⟩

/-! ## DependencyResolver lemmas -/

theorem downloadArtifacts_fuel_mono (repo : MavenRepo) :
    ∀ f f' : Nat, ∀ st : MavenSt, ∀ l : List String,
      ∀ r : MavenSt × Except MavenErr Unit, f ≤ f' →
      downloadArtifacts repo f st l = some r →
      downloadArtifacts repo f' st l = some r := by
  intro f
  induction f with
  | zero => intro f' st l r _ h; simp [downloadArtifacts] at h
  | succ f ih =>
    intro f' st l r hle h
    obtain ⟨f'', rfl⟩ : ∃ f'', f' = f'' + 1 := ⟨f' - 1, by omega⟩
    have hle' : f ≤ f'' := by omega
    cases l with
    | nil => exact h
    | cons a rest =>
      simp only [downloadArtifacts] at h ⊢
      cases hp : parseGav a with
      | none => simpa [hp] using h
      | some gav =>
        obtain ⟨g, av, v⟩ := gav
        simp only [hp] at h ⊢
        by_cases hc : st.files.contains (jarFileName av v)
        · simp only [hc, if_true] at h ⊢
          exact ih f'' st rest r hle' h
        · simp only [hc] at h ⊢
          cases hl : repoLookup repo g av v with
          | none => simpa [hl] using h
          | some deps =>
            simp only [hl] at h ⊢
            cases hinner : downloadArtifacts repo f
                ⟨jarFileName av v :: st.files,
                 pomUrl g av v :: jarUrl g av v :: st.fetchedUrls,
                 ⟨g, av, v⟩ :: st.fetchedCoords⟩ (nonTestDeps deps) with
            | none => rw [hinner] at h; cases h
            | some p =>
              obtain ⟨st2, r2⟩ := p
              rw [hinner] at h
              rw [ih f'' _ _ _ hle' hinner]
              cases r2 with
              | error e => exact h
              | ok u => cases u; exact ih f'' st2 rest r hle' h

theorem downloadArtifacts_st_mono (repo : MavenRepo) :
    ∀ f : Nat, ∀ st : MavenSt, ∀ l : List String, ∀ st' : MavenSt,
      ∀ r : Except MavenErr Unit,
      downloadArtifacts repo f st l = some (st', r) →
      (∀ x ∈ st.files, x ∈ st'.files) ∧ (∀ c ∈ st.fetchedCoords, c ∈ st'.fetchedCoords) := by
  intro f
  induction f with
  | zero => intro st l st' r h; simp [downloadArtifacts] at h
  | succ f ih =>
    intro st l st' r h
    cases l with
    | nil =>
      simp only [downloadArtifacts] at h
      obtain ⟨rfl, -⟩ : st = st' ∧ True := by
        cases h; exact ⟨rfl, trivial⟩
      exact ⟨fun x hx => hx, fun c hc => hc⟩
    | cons a rest =>
      simp only [downloadArtifacts] at h
      cases hp : parseGav a with
      | none =>
        simp only [hp] at h
        cases h
        exact ⟨fun x hx => hx, fun c hc => hc⟩
      | some gav =>
        obtain ⟨g, av, v⟩ := gav
        simp only [hp] at h
        by_cases hc : st.files.contains (jarFileName av v)
        · simp only [hc, if_true] at h
          exact ih st rest st' r h
        · simp only [hc] at h
          cases hl : repoLookup repo g av v with
          | none =>
            simp only [hl] at h
            cases h
            exact ⟨fun x hx => hx, fun c hc => List.mem_cons_of_mem _ hc⟩
          | some deps =>
            simp only [hl] at h
            cases hinner : downloadArtifacts repo f
                ⟨jarFileName av v :: st.files,
                 pomUrl g av v :: jarUrl g av v :: st.fetchedUrls,
                 ⟨g, av, v⟩ :: st.fetchedCoords⟩ (nonTestDeps deps) with
            | none => rw [hinner] at h; cases h
            | some p =>
              obtain ⟨st2, r2⟩ := p
              rw [hinner] at h
              have h1 := ih _ _ _ _ hinner
              cases r2 with
              | error e =>
                cases h
                exact ⟨fun x hx => h1.1 x (List.mem_cons_of_mem _ hx),
                       fun c hc => h1.2 c (List.mem_cons_of_mem _ hc)⟩
              | ok u =>
                cases u
                have h2 := ih st2 rest st' r h
                exact ⟨fun x hx => h2.1 x (h1.1 x (List.mem_cons_of_mem _ hx)),
                       fun c hc => h2.2 c (h1.2 c (List.mem_cons_of_mem _ hc))⟩

theorem downloadArtifacts_ok_processed (repo : MavenRepo) :
    ∀ f : Nat, ∀ st : MavenSt, ∀ l : List String, ∀ st' : MavenSt,
      downloadArtifacts repo f st l = some (st', .ok ()) →
      ∀ a ∈ l, ∃ g av v, parseGav a = some (g, av, v) ∧ jarFileName av v ∈ st'.files := by
  intro f
  induction f with
  | zero => intro st l st' h; simp [downloadArtifacts] at h
  | succ f ih =>
    intro st l st' h a ha
    cases l with
    | nil => cases ha
    | cons a0 rest =>
      simp only [downloadArtifacts] at h
      cases hp : parseGav a0 with
      | none => simp only [hp] at h; cases h
      | some gav =>
        obtain ⟨g, av, v⟩ := gav
        simp only [hp] at h
        by_cases hc : st.files.contains (jarFileName av v)
        · simp only [hc, if_true] at h
          rcases List.mem_cons.mp ha with rfl | ha
          · exact ⟨g, av, v, hp,
              (downloadArtifacts_st_mono repo f st rest st' _ h).1 _
                (by simpa using hc)⟩
          · exact ih st rest st' h a ha
        · simp only [hc] at h
          cases hl : repoLookup repo g av v with
          | none => simp only [hl] at h; cases h
          | some deps =>
            simp only [hl] at h
            cases hinner : downloadArtifacts repo f
                ⟨jarFileName av v :: st.files,
                 pomUrl g av v :: jarUrl g av v :: st.fetchedUrls,
                 ⟨g, av, v⟩ :: st.fetchedCoords⟩ (nonTestDeps deps) with
            | none => rw [hinner] at h; cases h
            | some p =>
              obtain ⟨st2, r2⟩ := p
              rw [hinner] at h
              cases r2 with
              | error e => cases h
              | ok u =>
                cases u
                rcases List.mem_cons.mp ha with rfl | ha
                · refine ⟨g, av, v, hp, ?_⟩
                  have h1 := (downloadArtifacts_st_mono repo f _ _ _ _ hinner).1
                  have h2 := (downloadArtifacts_st_mono repo f st2 rest st' _ h).1
                  exact h2 _ (h1 _ (List.mem_cons_self _ _))
                · exact ih st2 rest st' h a ha

theorem downloadArtifacts_skip_all (repo : MavenRepo) :
    ∀ l : List String, ∀ st : MavenSt,
      (∀ a ∈ l, ∃ g av v, parseGav a = some (g, av, v) ∧ jarFileName av v ∈ st.files) →
      downloadArtifacts repo (l.length + 1) st l = some (st, .ok ()) := by
  intro l
  induction l with
  | nil => intro st _; rfl
  | cons a rest ih =>
    intro st hall
    obtain ⟨g, av, v, hp, hmem⟩ := hall a (List.mem_cons_self _ _)
    have hc : st.files.contains (jarFileName av v) = true := by
      simpa using hmem
    simp only [List.length_cons, downloadArtifacts, hp, hc, if_true]
    exact ih st (fun a ha => hall a (List.mem_cons_of_mem _ ha))

/-! ## C4 — resolver idempotence -/

/-- C4: after one successful `downloadArtifacts` run, every requested
coordinate's jar file exists under the output directory, so a second call
with the same arguments skips every coordinate and returns with the state
unchanged — in particular no network fetch happens (the fetch logs are
exactly those of the first call). -/
theorem downloadArtifacts_idempotent (repo : MavenRepo) (f : Nat) (st st' : MavenSt)
    (l : List String)
    (h : downloadArtifacts repo f st l = some (st', .ok ())) :
    (∀ a ∈ l, ∃ g av v, parseGav a = some (g, av, v) ∧ jarFileName av v ∈ st'.files) ∧
    downloadArtifacts repo (l.length + 1) st' l = some (st', .ok ()) :=
  ⟨downloadArtifacts_ok_processed repo f st l st' h,
   downloadArtifacts_skip_all repo l st' (downloadArtifacts_ok_processed repo f st l st' h)⟩

/-- Witness for C4: a first run against `repoDual` populates the output
directory; the theorem yields that the second run returns the same state
(no fetch) and succeeds. -/
theorem downloadArtifacts_idempotent_witness :
    downloadArtifacts repoDual 9 ⟨[], [], []⟩ ["g:a:1"] = some (stDualFinal, .ok ()) ∧
    downloadArtifacts repoDual 2 stDualFinal ["g:a:1"] = some (stDualFinal, .ok ()) :=
  ⟨by decide,
   (downloadArtifacts_idempotent repoDual 9 ⟨[], [], []⟩ stDualFinal ["g:a:1"]
      (by decide)).2⟩

theorem repoLookup_mem (repo : MavenRepo) (g a v : String) (deps : List MavenDep)
    (h : repoLookup repo g a v = some deps) :
    ∃ e ∈ repo, e.coord = ⟨g, a, v⟩ ∧ e.deps = deps := by
  unfold repoLookup at h
  cases hf : repo.find? (fun e => e.coord = ⟨g, a, v⟩) with
  | none => rw [hf] at h; cases h
  | some e =>
    rw [hf] at h
    cases h
    refine ⟨e, List.mem_of_find?_eq_some hf, ?_, rfl⟩
    have := List.find?_some hf
    simpa using this

theorem nonTestDeps_mem (deps : List MavenDep) (s : String) (hs : s ∈ nonTestDeps deps) :
    ∃ d ∈ deps, d.scope ≠ "test" ∧ s = depGav d := by
  unfold nonTestDeps at hs
  obtain ⟨d, hd, rfl⟩ := List.mem_map.mp hs
  obtain ⟨hd1, hd2⟩ := List.mem_filter.mp hd
  exact ⟨d, hd1, by simpa using hd2, rfl⟩

theorem nonTestDeps_mem_of (deps : List MavenDep) (d : MavenDep)
    (hd : d ∈ deps) (hs : d.scope ≠ "test") : depGav d ∈ nonTestDeps deps :=
  List.mem_map_of_mem _ (List.mem_filter.mpr ⟨hd, by simpa using hs⟩)

theorem downloadArtifacts_fetch_upper (repo : MavenRepo)
    (hwf : ∀ e ∈ repo, ∀ d ∈ e.deps,
      parseGav (depGav d) = some (d.groupId, d.artifactId, d.version)) :
    ∀ f : Nat, ∀ st : MavenSt, ∀ l : List String, ∀ st' : MavenSt,
      ∀ r : Except MavenErr Unit,
      downloadArtifacts repo f st l = some (st', r) →
      ∀ c ∈ st'.fetchedCoords, c ∈ st.fetchedCoords ∨
        (∃ s ∈ l, parseGav s = some (c.group, c.artifact, c.version)) ∨
        (∃ e ∈ repo, ∃ d ∈ e.deps, d.scope ≠ "test" ∧
          c = ⟨d.groupId, d.artifactId, d.version⟩) := by
  intro f
  induction f with
  | zero => intro st l st' r h; simp [downloadArtifacts] at h
  | succ f ih =>
    intro st l st' r h c hc
    cases l with
    | nil =>
      simp only [downloadArtifacts] at h
      cases h
      exact Or.inl hc
    | cons a rest =>
      simp only [downloadArtifacts] at h
      cases hp : parseGav a with
      | none =>
        simp only [hp] at h
        cases h
        exact Or.inl hc
      | some gav =>
        obtain ⟨g, av, v⟩ := gav
        simp only [hp] at h
        by_cases hskip : st.files.contains (jarFileName av v)
        · simp only [hskip, if_true] at h
          rcases ih st rest st' r h c hc with h1 | ⟨s, hs, hps⟩ | h3
          · exact Or.inl h1
          · exact Or.inr (Or.inl ⟨s, List.mem_cons_of_mem _ hs, hps⟩)
          · exact Or.inr (Or.inr h3)
        · simp only [hskip] at h
          cases hl : repoLookup repo g av v with
          | none =>
            simp only [hl] at h
            cases h
            rcases List.mem_cons.mp hc with rfl | hc
            · exact Or.inr (Or.inl ⟨a, List.mem_cons_self _ _, hp⟩)
            · exact Or.inl hc
          | some deps =>
            simp only [hl] at h
            have hdepstr : ∀ c' : MavenCoord,
                (∃ s ∈ nonTestDeps deps,
                  parseGav s = some (c'.group, c'.artifact, c'.version)) →
                ∃ e ∈ repo, ∃ d ∈ e.deps, d.scope ≠ "test" ∧
                  c' = ⟨d.groupId, d.artifactId, d.version⟩ := by
              rintro c' ⟨s, hs, hps⟩
              obtain ⟨d, hd, hdscope, rfl⟩ := nonTestDeps_mem deps s hs
              obtain ⟨e, he, hecoord, hedeps⟩ := repoLookup_mem repo g av v deps hl
              have hpd := hwf e he d (hedeps ▸ hd)
              rw [hpd] at hps
              obtain ⟨cg, ca, cv⟩ := c'
              simp only [Option.some.injEq, Prod.mk.injEq] at hps
              obtain ⟨h1, h2, h3⟩ := hps
              exact ⟨e, he, d, hedeps ▸ hd, hdscope, by simp [← h1, ← h2, ← h3]⟩
            cases hinner : downloadArtifacts repo f
                ⟨jarFileName av v :: st.files,
                 pomUrl g av v :: jarUrl g av v :: st.fetchedUrls,
                 ⟨g, av, v⟩ :: st.fetchedCoords⟩ (nonTestDeps deps) with
            | none => rw [hinner] at h; cases h
            | some p =>
              obtain ⟨st2, r2⟩ := p
              rw [hinner] at h
              have hst2 : c ∈ st2.fetchedCoords →
                  c ∈ st.fetchedCoords ∨
                  (∃ s ∈ a :: rest, parseGav s = some (c.group, c.artifact, c.version)) ∨
                  (∃ e ∈ repo, ∃ d ∈ e.deps, d.scope ≠ "test" ∧
                    c = ⟨d.groupId, d.artifactId, d.version⟩) := by
                intro hc2
                rcases ih _ _ _ _ hinner c hc2 with h1 | h2 | h3
                · rcases List.mem_cons.mp h1 with rfl | h1
                  · exact Or.inr (Or.inl ⟨a, List.mem_cons_self _ _, hp⟩)
                  · exact Or.inl h1
                · exact Or.inr (Or.inr (hdepstr c h2))
                · exact Or.inr (Or.inr h3)
              cases r2 with
              | error e0 =>
                cases h
                exact hst2 hc
              | ok u =>
                cases u
                rcases ih st2 rest st' r h c hc with h1 | ⟨s, hs, hps⟩ | h3
                · exact hst2 h1
                · exact Or.inr (Or.inl ⟨s, List.mem_cons_of_mem _ hs, hps⟩)
                · exact Or.inr (Or.inr h3)

theorem downloadArtifacts_fetch_closed (repo : MavenRepo)
    (hwf : ∀ e ∈ repo, ∀ d ∈ e.deps,
      parseGav (depGav d) = some (d.groupId, d.artifactId, d.version))
    (hinj : ∀ e1 ∈ repo, ∀ e2 ∈ repo,
      jarFileName e1.coord.artifact e1.coord.version =
        jarFileName e2.coord.artifact e2.coord.version → e1.coord = e2.coord) :
    ∀ f : Nat, ∀ st : MavenSt, ∀ l : List String, ∀ st' : MavenSt,
      downloadArtifacts repo f st l = some (st', .ok ()) →
      ∀ g a v deps, repoLookup repo g a v = some deps →
        jarFileName a v ∈ st'.files → jarFileName a v ∉ st.files →
        ∀ d ∈ deps, d.scope ≠ "test" → jarFileName d.artifactId d.version ∈ st'.files := by
  intro f
  induction f with
  | zero => intro st l st' h; simp [downloadArtifacts] at h
  | succ f ih =>
    intro st l st' h g a v deps hlook hin hout d hd hdscope
    cases l with
    | nil =>
      simp only [downloadArtifacts] at h
      cases h
      exact absurd hin hout
    | cons a0 rest =>
      simp only [downloadArtifacts] at h
      cases hp : parseGav a0 with
      | none => simp only [hp] at h; cases h
      | some gav =>
        obtain ⟨g0, av0, v0⟩ := gav
        simp only [hp] at h
        by_cases hskip : st.files.contains (jarFileName av0 v0)
        · simp only [hskip, if_true] at h
          exact ih st rest st' h g a v deps hlook hin hout d hd hdscope
        · simp only [hskip] at h
          cases hl : repoLookup repo g0 av0 v0 with
          | none => simp only [hl] at h; cases h
          | some deps0 =>
            simp only [hl] at h
            cases hinner : downloadArtifacts repo f
                ⟨jarFileName av0 v0 :: st.files,
                 pomUrl g0 av0 v0 :: jarUrl g0 av0 v0 :: st.fetchedUrls,
                 ⟨g0, av0, v0⟩ :: st.fetchedCoords⟩ (nonTestDeps deps0) with
            | none => rw [hinner] at h; cases h
            | some p =>
              obtain ⟨st2, r2⟩ := p
              rw [hinner] at h
              cases r2 with
              | error e0 => cases h
              | ok u =>
                cases u
                by_cases hsame : jarFileName a v = jarFileName av0 v0
                · -- the queried coordinate is exactly the fetched one
                  obtain ⟨e1, he1, he1c, he1d⟩ := repoLookup_mem repo g a v deps hlook
                  obtain ⟨e2, he2, he2c, he2d⟩ := repoLookup_mem repo g0 av0 v0 deps0 hl
                  have hceq : e1.coord = e2.coord := by
                    apply hinj e1 he1 e2 he2
                    rw [he1c, he2c]
                    exact hsame
                  have hcoords : (⟨g, a, v⟩ : MavenCoord) = ⟨g0, av0, v0⟩ := by
                    rw [← he1c, ← he2c]; exact hceq
                  obtain ⟨hg, ha, hv⟩ := MavenCoord.mk.injEq _ _ _ _ _ _ ▸ hcoords
                  subst hg; subst ha; subst hv
                  have hdeq : deps = deps0 := by
                    rw [hlook] at hl
                    exact Option.some.inj hl
                  subst hdeq
                  have hproc := downloadArtifacts_ok_processed repo f _ _ _ hinner
                    (depGav d) (nonTestDeps_mem_of deps d hd hdscope)
                  obtain ⟨g', av', v', hps, hmem2⟩ := hproc
                  rw [hwf e2 he2 d (he2d ▸ hd)] at hps
                  obtain ⟨h1, h2, h3⟩ :
                      d.groupId = g' ∧ d.artifactId = av' ∧ d.version = v' := by
                    simpa using hps
                  rw [h2, h3]
                  exact (downloadArtifacts_st_mono repo f st2 rest st' _ h).1 _ hmem2
                · have hout1 : jarFileName a v ∉ jarFileName av0 v0 :: st.files := by
                    intro hmem
                    rcases List.mem_cons.mp hmem with heq | hmem
                    · exact hsame heq
                    · exact hout hmem
                  by_cases hmid : jarFileName a v ∈ st2.files
                  · have := ih _ _ _ hinner g a v deps hlook hmid hout1 d hd hdscope
                    exact (downloadArtifacts_st_mono repo f st2 rest st' _ h).1 _ this
                  · exact ih st2 rest st' h g a v deps hlook hin hmid d hd hdscope

/-! ## C5 — test-scope filtering in dependency resolution -/

/-- C5 (counterexample): a coordinate declared with scope exactly
`"test"` can still be fetched — `g:b:1` is declared with scope `"test"` in
`g:a:1`'s POM, yet resolving `g:a:1` fetches it, because `g:c:1` also
declares it with a non-test scope.  Only the *edge* is skipped, not the
coordinate. -/
theorem downloadArtifacts_fetches_test_scoped_elsewhere :
    (downloadArtifacts repoDual 9 ⟨[], [], []⟩ ["g:a:1"]).map
        (fun p => (p.2.toBool, p.1.fetchedCoords.contains ⟨"g", "b", "1"⟩)) =
      some (true, true) ∧
    (repoLookup repoDual "g" "a" "1").map
        (fun deps => deps.contains ⟨"g", "b", "1", "test"⟩) = some true := by
  constructor
  · decide
  · decide

/-- C5 (amended): the resolver recurses into exactly the declared
dependencies whose scope is not `"test"`: every coordinate for which a
fetch is attempted is either named in the request list or declared
somewhere in the repository with a non-test scope (so a coordinate
reachable only through test-scoped edges and absent from the request list
is never fetched); and, from an empty output directory, a successful run
fetches every coordinate reachable from the request list through non-test
edges.  (`hwf` states that the repository's declared coordinates round-trip
through G:A:V formatting, i.e. contain no `:`; `hinj` that no two distinct
repository coordinates share a jar file name.) -/
theorem downloadArtifacts_test_scope_filtering (repo : MavenRepo) (f : Nat)
    (st st' : MavenSt) (l : List String) (r : Except MavenErr Unit)
    (hwf : ∀ e ∈ repo, ∀ d ∈ e.deps,
      parseGav (depGav d) = some (d.groupId, d.artifactId, d.version))
    (hinj : ∀ e1 ∈ repo, ∀ e2 ∈ repo,
      jarFileName e1.coord.artifact e1.coord.version =
        jarFileName e2.coord.artifact e2.coord.version → e1.coord = e2.coord)
    (hrun : downloadArtifacts repo f st l = some (st', r)) :
    (∀ c ∈ st'.fetchedCoords, c ∈ st.fetchedCoords ∨
      (∃ s ∈ l, parseGav s = some (c.group, c.artifact, c.version)) ∨
      (∃ e ∈ repo, ∃ d ∈ e.deps, d.scope ≠ "test" ∧
        c = ⟨d.groupId, d.artifactId, d.version⟩)) ∧
    (st.files = [] → r = .ok () → ∀ c, ReachNT repo l c →
      jarFileName c.artifact c.version ∈ st'.files) := by
  constructor
  · exact downloadArtifacts_fetch_upper repo hwf f st l st' r hrun
  · intro h0 hok c hreach
    subst hok
    induction hreach with
    | @root s c0 hs hp =>
      obtain ⟨g', av', v', hps', hmem⟩ :=
        downloadArtifacts_ok_processed repo f st l st' hrun _ hs
      rw [hp] at hps'
      obtain ⟨h1, h2, h3⟩ :
          c0.group = g' ∧ c0.artifact = av' ∧ c0.version = v' := by simpa using hps'
      rw [h2, h3]
      exact hmem
    | @step c0 deps d hr hlook hd hscope ih =>
      exact downloadArtifacts_fetch_closed repo hwf hinj f st l st' hrun
        _ _ _ _ hlook ih (by rw [h0]; exact List.not_mem_nil _) _ hd hscope

/-- Witness for C5: in `repoDual`, `g:b:1` is reachable through non-test
edges (`a → c → b`), and the theorem yields its jar in the final state of
the successful run. -/
theorem downloadArtifacts_test_scope_filtering_witness :
    jarFileName "b" "1" ∈ stDualFinal.files :=
  (downloadArtifacts_test_scope_filtering repoDual 9 ⟨[], [], []⟩ stDualFinal
      ["g:a:1"] (.ok ()) (by decide) (by decide) (by decide)).2 rfl rfl
    ⟨"g", "b", "1"⟩
    (@ReachNT.step repoDual ["g:a:1"] ⟨"g", "c", "1"⟩
      [⟨"g", "b", "1", ""⟩] ⟨"g", "b", "1", ""⟩
      (@ReachNT.step repoDual ["g:a:1"] ⟨"g", "a", "1"⟩
        [⟨"g", "b", "1", "test"⟩, ⟨"g", "c", "1", ""⟩] ⟨"g", "c", "1", ""⟩
        (@ReachNT.root repoDual ["g:a:1"] "g:a:1" ⟨"g", "a", "1"⟩
          (List.mem_cons_self _ _) (by decide))
        (by decide) (by decide) (by decide))
      (by decide) (by decide) (by decide))

/-! ## Termination of the resolver -/

theorem length_filter_le_of_imp {α : Type} (L : List α) (p q : α → Bool)
    (h : ∀ x ∈ L, p x = true → q x = true) :
    (L.filter p).length ≤ (L.filter q).length := by
  induction L with
  | nil => simp
  | cons x xs ih =>
    have ih' := ih (fun y hy => h y (List.mem_cons_of_mem _ hy))
    cases hp : p x with
    | true =>
      have hq := h x (List.mem_cons_self _ _) hp
      simp only [List.filter_cons, hp, hq, if_true]
      simpa using ih'
    | false =>
      cases hq : q x with
      | true =>
        simp only [List.filter_cons, hp, hq]
        simp only [Bool.false_eq_true, if_false, if_true, List.length_cons]
        omega
      | false =>
        simp only [List.filter_cons, hp, hq]
        simpa using ih'

theorem length_filter_lt_of_imp {α : Type} (L : List α) (p q : α → Bool)
    (h : ∀ x ∈ L, p x = true → q x = true)
    (x0 : α) (hx : x0 ∈ L) (hq0 : q x0 = true) (hp0 : p x0 = false) :
    (L.filter p).length < (L.filter q).length := by
  induction L with
  | nil => cases hx
  | cons y ys ih =>
    have hrest : ∀ x ∈ ys, p x = true → q x = true :=
      fun x hxm => h x (List.mem_cons_of_mem _ hxm)
    rcases List.mem_cons.mp hx with rfl | hx0
    · simp only [List.filter_cons, hp0, hq0, Bool.false_eq_true, if_false, if_true,
        List.length_cons]
      have := length_filter_le_of_imp ys p q hrest
      omega
    · have ih' := ih hrest hx0
      cases hp : p y with
      | true =>
        have hqy := h y (List.mem_cons_self _ _) hp
        simp only [List.filter_cons, hp, hqy, if_true, List.length_cons]
        omega
      | false =>
        cases hqy : q y with
        | true =>
          simp only [List.filter_cons, hp, hqy, Bool.false_eq_true, if_false, if_true,
            List.length_cons]
          omega
        | false =>
          simp only [List.filter_cons, hp, hqy, Bool.false_eq_true, if_false]
          exact ih'

theorem missingCount_mono (repo : MavenRepo) (f : Nat) (st : MavenSt)
    (l : List String) (st' : MavenSt) (r : Except MavenErr Unit)
    (h : downloadArtifacts repo f st l = some (st', r)) :
    missingCount repo st' ≤ missingCount repo st := by
  have hsub := (downloadArtifacts_st_mono repo f st l st' r h).1
  unfold missingCount
  apply length_filter_le_of_imp
  intro x _ hpx
  have hnot : x ∉ st'.files := of_decide_eq_true hpx
  exact decide_eq_true (fun hmem => hnot (hsub x hmem))

theorem missingCount_lt_of_fetch (repo : MavenRepo) (st st1 : MavenSt)
    (g a v : String) (deps : List MavenDep)
    (hl : repoLookup repo g a v = some deps)
    (hnot : jarFileName a v ∉ st.files)
    (hf : st1.files = jarFileName a v :: st.files) :
    missingCount repo st1 < missingCount repo st := by
  obtain ⟨e, he, hec, -⟩ := repoLookup_mem repo g a v deps hl
  unfold missingCount
  apply length_filter_lt_of_imp _ _ _ ?_ (jarFileName a v)
  · unfold repoJarNames
    refine List.mem_map.mpr ⟨e, he, ?_⟩
    rw [hec]
  · exact decide_eq_true hnot
  · refine decide_eq_false ?_
    intro hcon
    exact hcon (by rw [hf]; exact List.mem_cons_self _ _)
  · intro x _ hpx
    have hx1 : x ∉ st1.files := of_decide_eq_true hpx
    refine decide_eq_true (fun hmem => hx1 ?_)
    rw [hf]
    exact List.mem_cons_of_mem _ hmem

theorem downloadArtifacts_term_aux (repo : MavenRepo) :
    ∀ k : Nat, ∀ st : MavenSt, missingCount repo st ≤ k →
      ∀ l : List String,
        ∃ f st' r, downloadArtifacts repo f st l = some (st', r) := by
  intro k
  induction k using Nat.strong_induction_on with
  | _ k ih =>
    intro st hk l
    induction l with
    | nil => exact ⟨1, st, .ok (), rfl⟩
    | cons a rest ihl =>
      cases hp : parseGav a with
      | none =>
        exact ⟨1, st, .error (.invalidCoord a), by simp [downloadArtifacts, hp]⟩
      | some gav =>
        obtain ⟨g, av, v⟩ := gav
        by_cases hc : st.files.contains (jarFileName av v)
        · obtain ⟨f, st', r, hf⟩ := ihl
          refine ⟨f + 1, st', r, ?_⟩
          simp only [downloadArtifacts, hp, hc, if_true]
          exact hf
        · cases hl : repoLookup repo g av v with
          | none =>
            refine ⟨1, { st with fetchedUrls := jarUrl g av v :: st.fetchedUrls,
                                 fetchedCoords := ⟨g, av, v⟩ :: st.fetchedCoords },
                    .error (.fetchFailed (jarUrl g av v)), ?_⟩
            simp only [downloadArtifacts, hp, hl]
            rw [if_neg (by simpa using hc)]
          | some deps =>
            have hnot : jarFileName av v ∉ st.files := by simpa using hc
            have hlt : missingCount repo
                (⟨jarFileName av v :: st.files,
                  pomUrl g av v :: jarUrl g av v :: st.fetchedUrls,
                  ⟨g, av, v⟩ :: st.fetchedCoords⟩ : MavenSt) < missingCount repo st :=
              missingCount_lt_of_fetch repo st _ g av v deps hl hnot rfl
            obtain ⟨f1, st2, r2, h1⟩ :=
              ih (missingCount repo
                    (⟨jarFileName av v :: st.files,
                      pomUrl g av v :: jarUrl g av v :: st.fetchedUrls,
                      ⟨g, av, v⟩ :: st.fetchedCoords⟩ : MavenSt)) (by omega)
                _ le_rfl (nonTestDeps deps)
            cases r2 with
            | error e0 =>
              refine ⟨f1 + 1, st2, .error e0, ?_⟩
              simp only [downloadArtifacts, hp, hl]
              rw [if_neg (by simpa using hc)]
              rw [h1]
            | ok u =>
              cases u
              have hm2 := missingCount_mono repo f1 _ _ st2 _ h1
              obtain ⟨f2, st3, r3, h2⟩ :=
                ih (missingCount repo
                      (⟨jarFileName av v :: st.files,
                        pomUrl g av v :: jarUrl g av v :: st.fetchedUrls,
                        ⟨g, av, v⟩ :: st.fetchedCoords⟩ : MavenSt)) (by omega)
                  st2 hm2 rest
              refine ⟨max f1 f2 + 1, st3, r3, ?_⟩
              have h1' := downloadArtifacts_fuel_mono repo f1 (max f1 f2) _ _ _
                (le_max_left _ _) h1
              have h2' := downloadArtifacts_fuel_mono repo f2 (max f1 f2) _ _ _
                (le_max_right _ _) h2
              simp only [downloadArtifacts, hp, hl]
              rw [if_neg (by simpa using hc)]
              rw [h1']
              exact h2'

/-! ## C8 — behaviour on cyclic dependency graphs -/

/-- C8 (counterexample): on the paradigmatic cyclic graph (`a` and `b`
depend on each other through non-test edges), `downloadArtifacts`
terminates with success (fuel 5 suffices) — each artifact's jar is written
to the output directory before the recursion, so the already-exists check
acts as a visited set and the recursion bottoms out. -/
theorem downloadArtifacts_cycle_terminates_example :
    (downloadArtifacts repoCyc 5 ⟨[], [], []⟩ ["g:a:1"]).map (fun p => p.2.toBool) =
      some true ∧
    repoLookup repoCyc "g" "a" "1" = some [⟨"g", "b", "1", "compile"⟩] ∧
    repoLookup repoCyc "g" "b" "1" = some [⟨"g", "a", "1", "compile"⟩] := by
  refine ⟨?_, ?_, ?_⟩ <;> decide

/-- C8 (amended): `downloadArtifacts` performs no explicit cycle
detection, but it terminates on every input over a (finite) repository —
cyclic dependency graphs included — because each fetched artifact's jar
is created before the recursion and already-present jars are skipped:
for every state and coordinate list some fuel suffices for an actual
result. -/
theorem downloadArtifacts_always_terminates (repo : MavenRepo) (st : MavenSt)
    (l : List String) :
    ∃ f st' r, downloadArtifacts repo f st l = some (st', r) :=
  downloadArtifacts_term_aux repo (missingCount repo st) st le_rfl l

/-! ## Concurrency: invariants of the store transition system -/

theorem countP_set_of_get? {α : Type} (l : List α) (i : Nat) (x a : α) (p : α → Bool)
    (h : l.get? i = some x) :
    (l.set i a).countP p + (if p x then 1 else 0) =
      l.countP p + (if p a then 1 else 0) := by
  induction l generalizing i with
  | nil => cases h
  | cons y ys ih =>
    cases i with
    | zero =>
      cases h
      simp only [List.set_cons_zero, List.countP_cons]
      omega
    | succ j =>
      simp only [List.get?_cons_succ] at h
      simp only [List.set_cons_succ, List.countP_cons]
      have := ih j h
      omega

theorem set_get?_self {α : Type} (l : List α) (i : Nat) (x : α)
    (h : l.get? i = some x) : l.set i x = l := by
  induction l generalizing i with
  | nil => cases h
  | cons y ys ih =>
    cases i with
    | zero => cases h; rfl
    | succ j =>
      simp only [List.get?_cons_succ] at h
      simp only [List.set_cons_succ]
      rw [ih j h]

theorem two_le_length_of_mem_ne {α : Type} {l : List α} {a b : α}
    (ha : a ∈ l) (hb : b ∈ l) (hne : a ≠ b) : 2 ≤ l.length := by
  cases l with
  | nil => cases ha
  | cons x xs =>
    cases xs with
    | nil =>
      rcases List.mem_singleton.mp ha with rfl
      rcases List.mem_singleton.mp hb with rfl
      exact absurd rfl hne
    | cons y ys => simp only [List.length_cons]; omega

/-- The per-task and global invariants of the `StoreStep` system.  All
counts are phrased over the task list; the lock serializes the body, the
download log never repeats a cache path, and the cache directories are
exactly the completed extractions. -/
structure StoreInv (rtCache version : String) (s : StoreState) : Prop where
  body_le_one : s.tasks.countP (fun t => isBody t.status) ≤ 1
  lock_iff : s.lock = true ↔ s.tasks.countP (fun t => isBody t.status) = 1
  dl_count : ∀ p : String, s.downloads.count p =
    s.extracts.count p +
      s.tasks.countP
        (fun t => isDE t.status && decide (runtimeCachePath rtCache t.desc = p))
  dl_nodup : s.downloads.Nodup
  cache_eq : s.cachedDirs = s.extracts
  done_ok : ∀ t ∈ s.tasks, ∀ r, t.status = .done r →
    r = runtimeHandlePath rtCache t.desc version ∧
      runtimeCachePath rtCache t.desc ∈ s.cachedDirs
  dl_paths : ∀ p ∈ s.downloads,
    p ∈ s.tasks.map (fun t => runtimeCachePath rtCache t.desc)

theorem storeInit_inv (rtCache version : String) (n : Nat) (d : AdoptiumBinary) :
    StoreInv rtCache version (storeInit n d) := by
  have hz : ∀ p : STask → Bool, p ⟨d, .idle⟩ = false →
      (List.replicate n (⟨d, .idle⟩ : STask)).countP p = 0 := by
    intro p hp
    induction n with
    | zero => rfl
    | succ m ih => simp [List.replicate_succ, List.countP_cons, hp, ih]
  refine ⟨?_, ?_, ?_, ?_, ?_, ?_, ?_⟩
  · show List.countP (fun t => isBody t.status)
        (List.replicate n (⟨d, .idle⟩ : STask)) ≤ 1
    rw [hz _ rfl]
    omega
  · show false = true ↔ List.countP (fun t => isBody t.status)
        (List.replicate n (⟨d, .idle⟩ : STask)) = 1
    rw [hz _ rfl]
    simp
  · intro p
    show List.count p [] = List.count p [] +
      List.countP (fun t => isDE t.status && decide (runtimeCachePath rtCache t.desc = p))
        (List.replicate n (⟨d, .idle⟩ : STask))
    rw [hz _ rfl]
    rfl
  · exact List.nodup_nil
  · rfl
  · intro t ht r hr
    have := List.eq_of_mem_replicate ht
    subst this
    cases hr
  · intro p hp; cases hp

theorem map_set_desc {α : Type} (l : List STask) (i : Nat) (d : AdoptiumBinary)
    (st1 st2 : TStatus) (f : AdoptiumBinary → α)
    (h : l.get? i = some ⟨d, st1⟩) :
    (l.set i ⟨d, st2⟩).map (fun t => f t.desc) = l.map (fun t => f t.desc) := by
  rw [List.map_set]
  apply set_get?_self
  have hm : (l.map (fun t => f t.desc)).get? i =
      (l.get? i).map (fun t => f t.desc) := List.get?_map _ _ _
  rw [hm, h]
  rfl

theorem storeInv_step (rtCache version : String) (s s' : StoreState)
    (inv : StoreInv rtCache version s) (hstep : StoreStep rtCache version s s') :
    StoreInv rtCache version s' := by
  cases hstep with
  | acquire i d hi hl =>
    have hbody : (s.tasks.set i ⟨d, .checking⟩).countP (fun t => isBody t.status) + 0 =
        s.tasks.countP (fun t => isBody t.status) + 1 :=
      countP_set_of_get? s.tasks i ⟨d, .idle⟩ ⟨d, .checking⟩ (fun t => isBody t.status) hi
    have hzero : s.tasks.countP (fun t => isBody t.status) = 0 := by
      have h1 := inv.body_le_one
      have h2 := inv.lock_iff
      rw [hl] at h2
      simp only [Bool.false_eq_true, false_iff] at h2
      omega
    refine ⟨?_, ?_, ?_, inv.dl_nodup, inv.cache_eq, ?_, ?_⟩
    · show (s.tasks.set i ⟨d, .checking⟩).countP (fun t => isBody t.status) ≤ 1
      omega
    · show true = true ↔
        (s.tasks.set i ⟨d, .checking⟩).countP (fun t => isBody t.status) = 1
      simp only [true_iff]
      omega
    · intro p
      have hde : (s.tasks.set i ⟨d, .checking⟩).countP
            (fun t => isDE t.status && decide (runtimeCachePath rtCache t.desc = p)) + 0 =
          s.tasks.countP
            (fun t => isDE t.status && decide (runtimeCachePath rtCache t.desc = p)) + 0 :=
        countP_set_of_get? s.tasks i ⟨d, .idle⟩ ⟨d, .checking⟩ _ hi
      have hcnt := inv.dl_count p
      show s.downloads.count p = s.extracts.count p +
        (s.tasks.set i ⟨d, .checking⟩).countP
          (fun t => isDE t.status && decide (runtimeCachePath rtCache t.desc = p))
      omega
    · intro t ht r hr
      rcases List.mem_or_eq_of_mem_set ht with htm | rfl
      · exact inv.done_ok t htm r hr
      · simp at hr
    · intro p hp
      rw [map_set_desc s.tasks i d .idle .checking _ hi]
      exact inv.dl_paths p hp
  | cacheHit i d hi hl hc =>
    have hone : s.tasks.countP (fun t => isBody t.status) = 1 := (inv.lock_iff).mp hl
    have hbody : (s.tasks.set i ⟨d, .done (runtimeHandlePath rtCache d version)⟩).countP
          (fun t => isBody t.status) + 1 =
        s.tasks.countP (fun t => isBody t.status) + 0 :=
      countP_set_of_get? s.tasks i ⟨d, .checking⟩
        ⟨d, .done (runtimeHandlePath rtCache d version)⟩ (fun t => isBody t.status) hi
    refine ⟨?_, ?_, ?_, inv.dl_nodup, inv.cache_eq, ?_, ?_⟩
    · show (s.tasks.set i ⟨d, .done (runtimeHandlePath rtCache d version)⟩).countP
        (fun t => isBody t.status) ≤ 1
      omega
    · show false = true ↔
        (s.tasks.set i ⟨d, .done (runtimeHandlePath rtCache d version)⟩).countP
          (fun t => isBody t.status) = 1
      simp only [Bool.false_eq_true, false_iff]
      omega
    · intro p
      have hde : (s.tasks.set i ⟨d, .done (runtimeHandlePath rtCache d version)⟩).countP
            (fun t => isDE t.status && decide (runtimeCachePath rtCache t.desc = p)) + 0 =
          s.tasks.countP
            (fun t => isDE t.status && decide (runtimeCachePath rtCache t.desc = p)) + 0 :=
        countP_set_of_get? s.tasks i ⟨d, .checking⟩
          ⟨d, .done (runtimeHandlePath rtCache d version)⟩ _ hi
      have hcnt := inv.dl_count p
      show s.downloads.count p = s.extracts.count p +
        (s.tasks.set i ⟨d, .done (runtimeHandlePath rtCache d version)⟩).countP
          (fun t => isDE t.status && decide (runtimeCachePath rtCache t.desc = p))
      omega
    · intro t ht r hr
      rcases List.mem_or_eq_of_mem_set ht with htm | rfl
      · exact inv.done_ok t htm r hr
      · simp only [TStatus.done.injEq] at hr
        subst hr
        exact ⟨rfl, by simpa using hc⟩
    · intro p hp
      rw [map_set_desc s.tasks i d .checking _ _ hi]
      exact inv.dl_paths p hp
  | beginDownload i d hi hl hc =>
    have hone : s.tasks.countP (fun t => isBody t.status) = 1 := (inv.lock_iff).mp hl
    have hmem : (⟨d, TStatus.checking⟩ : STask) ∈ s.tasks := List.get?_mem hi
    have hbody : (s.tasks.set i ⟨d, .downloading⟩).countP (fun t => isBody t.status) + 1 =
        s.tasks.countP (fun t => isBody t.status) + 1 :=
      countP_set_of_get? s.tasks i ⟨d, .checking⟩ ⟨d, .downloading⟩
        (fun t => isBody t.status) hi
    have hdezero : ∀ q : String, s.tasks.countP
        (fun t => isDE t.status && decide (runtimeCachePath rtCache t.desc = q)) = 0 := by
      intro q
      rw [List.countP_eq_zero]
      intro t htm hde
      simp only [Bool.and_eq_true, decide_eq_true_eq] at hde
      have hne : t ≠ (⟨d, TStatus.checking⟩ : STask) := by
        intro heq
        rw [heq] at hde
        simp [isDE] at hde
      have hb1 : (fun t : STask => isBody t.status) t = true := by
        obtain ⟨td, ts⟩ := t
        cases ts <;> simp_all [isDE, isBody]
      have hb2 : (fun t : STask => isBody t.status) (⟨d, TStatus.checking⟩ : STask) = true := by
        simp [isBody]
      have h2le : 2 ≤ (s.tasks.filter (fun t => isBody t.status)).length :=
        two_le_length_of_mem_ne (List.mem_filter.mpr ⟨htm, hb1⟩)
          (List.mem_filter.mpr ⟨hmem, hb2⟩) hne
      rw [List.countP_eq_length_filter] at hone
      omega
    refine ⟨?_, ?_, ?_, ?_, inv.cache_eq, ?_, ?_⟩
    · show (s.tasks.set i ⟨d, .downloading⟩).countP (fun t => isBody t.status) ≤ 1
      omega
    · show s.lock = true ↔
        (s.tasks.set i ⟨d, .downloading⟩).countP (fun t => isBody t.status) = 1
      rw [inv.lock_iff]
      omega
    · intro p
      have hde : (s.tasks.set i ⟨d, .downloading⟩).countP
            (fun t => isDE t.status && decide (runtimeCachePath rtCache t.desc = p)) + 0 =
          s.tasks.countP
            (fun t => isDE t.status && decide (runtimeCachePath rtCache t.desc = p)) +
            (if decide (runtimeCachePath rtCache d = p) = true then 1 else 0) :=
        countP_set_of_get? s.tasks i ⟨d, .checking⟩ ⟨d, .downloading⟩ _ hi
      have hcnt := inv.dl_count p
      have hcc := List.count_cons p (runtimeCachePath rtCache d) s.downloads
      show (runtimeCachePath rtCache d :: s.downloads).count p =
        s.extracts.count p + (s.tasks.set i ⟨d, .downloading⟩).countP
          (fun t => isDE t.status && decide (runtimeCachePath rtCache t.desc = p))
      by_cases hpq : runtimeCachePath rtCache d = p
      · rw [decide_eq_true hpq, if_pos rfl] at hde
        rw [if_pos (by simpa using hpq)] at hcc
        omega
      · rw [decide_eq_false hpq, if_neg (by decide)] at hde
        rw [if_neg (by simpa using hpq)] at hcc
        omega
    · show (runtimeCachePath rtCache d :: s.downloads).Nodup
      refine List.Nodup.cons ?_ inv.dl_nodup
      intro hmemdl
      have hcnt := inv.dl_count (runtimeCachePath rtCache d)
      have hex0 : s.extracts.count (runtimeCachePath rtCache d) = 0 := by
        rw [List.count_eq_zero]
        intro hmeme
        rw [← inv.cache_eq] at hmeme
        exact absurd hmeme (by simpa using hc)
      have hde0 := hdezero (runtimeCachePath rtCache d)
      have hpos : 0 < s.downloads.count (runtimeCachePath rtCache d) :=
        List.count_pos_iff.mpr hmemdl
      omega
    · intro t ht r hr
      rcases List.mem_or_eq_of_mem_set ht with htm | rfl
      · exact inv.done_ok t htm r hr
      · simp at hr
    · intro p hp
      rw [map_set_desc s.tasks i d .checking .downloading _ hi]
      rcases List.mem_cons.mp hp with rfl | hp
      · exact List.mem_map.mpr ⟨⟨d, .checking⟩, hmem, rfl⟩
      · exact inv.dl_paths p hp
  | beginExtract i d hi hl =>
    have hbody : (s.tasks.set i ⟨d, .extracting⟩).countP (fun t => isBody t.status) + 1 =
        s.tasks.countP (fun t => isBody t.status) + 1 :=
      countP_set_of_get? s.tasks i ⟨d, .downloading⟩ ⟨d, .extracting⟩
        (fun t => isBody t.status) hi
    refine ⟨?_, ?_, ?_, inv.dl_nodup, inv.cache_eq, ?_, ?_⟩
    · show (s.tasks.set i ⟨d, .extracting⟩).countP (fun t => isBody t.status) ≤ 1
      have := inv.body_le_one
      omega
    · show s.lock = true ↔
        (s.tasks.set i ⟨d, .extracting⟩).countP (fun t => isBody t.status) = 1
      rw [inv.lock_iff]
      omega
    · intro p
      have hde : (s.tasks.set i ⟨d, .extracting⟩).countP
            (fun t => isDE t.status && decide (runtimeCachePath rtCache t.desc = p)) +
            (if decide (runtimeCachePath rtCache d = p) = true then 1 else 0) =
          s.tasks.countP
            (fun t => isDE t.status && decide (runtimeCachePath rtCache t.desc = p)) +
            (if decide (runtimeCachePath rtCache d = p) = true then 1 else 0) :=
        countP_set_of_get? s.tasks i ⟨d, .downloading⟩ ⟨d, .extracting⟩ _ hi
      have hcnt := inv.dl_count p
      show s.downloads.count p = s.extracts.count p +
        (s.tasks.set i ⟨d, .extracting⟩).countP
          (fun t => isDE t.status && decide (runtimeCachePath rtCache t.desc = p))
      omega
    · intro t ht r hr
      rcases List.mem_or_eq_of_mem_set ht with htm | rfl
      · exact inv.done_ok t htm r hr
      · simp at hr
    · intro p hp
      rw [map_set_desc s.tasks i d .downloading .extracting _ hi]
      exact inv.dl_paths p hp
  | finishExtract i d hi hl =>
    have hone : s.tasks.countP (fun t => isBody t.status) = 1 := (inv.lock_iff).mp hl
    have hbody : (s.tasks.set i ⟨d, .done (runtimeHandlePath rtCache d version)⟩).countP
          (fun t => isBody t.status) + 1 =
        s.tasks.countP (fun t => isBody t.status) + 0 :=
      countP_set_of_get? s.tasks i ⟨d, .extracting⟩
        ⟨d, .done (runtimeHandlePath rtCache d version)⟩ (fun t => isBody t.status) hi
    refine ⟨?_, ?_, ?_, inv.dl_nodup, ?_, ?_, ?_⟩
    · show (s.tasks.set i ⟨d, .done (runtimeHandlePath rtCache d version)⟩).countP
        (fun t => isBody t.status) ≤ 1
      omega
    · show false = true ↔
        (s.tasks.set i ⟨d, .done (runtimeHandlePath rtCache d version)⟩).countP
          (fun t => isBody t.status) = 1
      simp only [Bool.false_eq_true, false_iff]
      omega
    · intro p
      have hde : (s.tasks.set i ⟨d, .done (runtimeHandlePath rtCache d version)⟩).countP
            (fun t => isDE t.status && decide (runtimeCachePath rtCache t.desc = p)) +
            (if decide (runtimeCachePath rtCache d = p) = true then 1 else 0) =
          s.tasks.countP
            (fun t => isDE t.status && decide (runtimeCachePath rtCache t.desc = p)) + 0 :=
        countP_set_of_get? s.tasks i ⟨d, .extracting⟩
          ⟨d, .done (runtimeHandlePath rtCache d version)⟩ _ hi
      have hcnt := inv.dl_count p
      have hcc := List.count_cons p (runtimeCachePath rtCache d) s.extracts
      show s.downloads.count p =
        (runtimeCachePath rtCache d :: s.extracts).count p +
          (s.tasks.set i ⟨d, .done (runtimeHandlePath rtCache d version)⟩).countP
            (fun t => isDE t.status && decide (runtimeCachePath rtCache t.desc = p))
      by_cases hpq : runtimeCachePath rtCache d = p
      · rw [decide_eq_true hpq, if_pos rfl] at hde
        rw [if_pos (by simpa using hpq)] at hcc
        omega
      · rw [decide_eq_false hpq, if_neg (by decide)] at hde
        rw [if_neg (by simpa using hpq)] at hcc
        omega
    · show runtimeCachePath rtCache d :: s.cachedDirs =
        runtimeCachePath rtCache d :: s.extracts
      rw [inv.cache_eq]
    · intro t ht r hr
      rcases List.mem_or_eq_of_mem_set ht with htm | rfl
      · obtain ⟨h1, h2⟩ := inv.done_ok t htm r hr
        exact ⟨h1, List.mem_cons_of_mem _ h2⟩
      · simp only [TStatus.done.injEq] at hr
        subst hr
        exact ⟨rfl, List.mem_cons_self _ _⟩
    · intro p hp
      rw [map_set_desc s.tasks i d .extracting _ _ hi]
      exact inv.dl_paths p hp

theorem isDone_iff (ts : TStatus) : isDone ts = true ↔ ∃ r, ts = .done r := by
  cases ts <;> simp [isDone]

theorem eq_singleton_of_nodup_all_eq (l : List String) (a : String)
    (hnd : l.Nodup) (hall : ∀ x ∈ l, x = a) (hmem : a ∈ l) : l = [a] := by
  cases l with
  | nil => cases hmem
  | cons x xs =>
    have hx : x = a := hall x (List.mem_cons_self _ _)
    subst hx
    cases xs with
    | nil => rfl
    | cons y ys =>
      have hy : y = x := hall y (by simp)
      subst hy
      simp at hnd

theorem storeReach_desc (rtCache version : String) (d : AdoptiumBinary)
    {s0 s : StoreState} (h : StoreReach rtCache version s0 s)
    (h0 : ∀ t ∈ s0.tasks, t.desc = d) : ∀ t ∈ s.tasks, t.desc = d := by
  induction h with
  | refl => exact h0
  | tail hr hs ih =>
    intro t ht
    cases hs with
    | acquire i d0 hi hl =>
      rcases List.mem_or_eq_of_mem_set ht with htm | rfl
      · exact ih t htm
      · exact ih ⟨d0, .idle⟩ (List.get?_mem hi)
    | cacheHit i d0 hi hl hc =>
      rcases List.mem_or_eq_of_mem_set ht with htm | rfl
      · exact ih t htm
      · exact ih ⟨d0, .checking⟩ (List.get?_mem hi)
    | beginDownload i d0 hi hl hc =>
      rcases List.mem_or_eq_of_mem_set ht with htm | rfl
      · exact ih t htm
      · exact ih ⟨d0, .checking⟩ (List.get?_mem hi)
    | beginExtract i d0 hi hl =>
      rcases List.mem_or_eq_of_mem_set ht with htm | rfl
      · exact ih t htm
      · exact ih ⟨d0, .downloading⟩ (List.get?_mem hi)
    | finishExtract i d0 hi hl =>
      rcases List.mem_or_eq_of_mem_set ht with htm | rfl
      · exact ih t htm
      · exact ih ⟨d0, .extracting⟩ (List.get?_mem hi)

theorem storeReach_len (rtCache version : String) {s0 s : StoreState}
    (h : StoreReach rtCache version s0 s) : s.tasks.length = s0.tasks.length := by
  induction h with
  | refl => rfl
  | tail hr hs ih =>
    cases hs with
    | acquire i d0 hi hl => rw [← ih]; exact List.length_set _ _ _
    | cacheHit i d0 hi hl hc => rw [← ih]; exact List.length_set _ _ _
    | beginDownload i d0 hi hl hc => rw [← ih]; exact List.length_set _ _ _
    | beginExtract i d0 hi hl => rw [← ih]; exact List.length_set _ _ _
    | finishExtract i d0 hi hl => rw [← ih]; exact List.length_set _ _ _

/-! ## C1 — concurrent materialization -/

/-- C1: in any interleaving of N concurrent `downloadRelease` calls for
the same descriptor `d` against a cold store, at most one extraction is in
progress at any reachable state (the lock is store-global, and this holds
even when the tasks request different descriptors — see `StoreStep`); and
once every caller has returned with at least one caller present, exactly
one archive download and exactly one extraction were performed, and every
caller holds the same fully-populated handle path. -/
theorem downloadRelease_single_download_and_extract
    (rtCache version : String) (n : Nat) (d : AdoptiumBinary) (s : StoreState)
    (h : StoreReach rtCache version (storeInit n d) s) :
    s.tasks.countP (fun t => isExtracting t.status) ≤ 1 ∧
    ((∀ t ∈ s.tasks, isDone t.status = true) → 1 ≤ n →
      s.downloads = [runtimeCachePath rtCache d] ∧
      s.extracts = [runtimeCachePath rtCache d] ∧
      ∀ t ∈ s.tasks, t.status = .done (runtimeHandlePath rtCache d version)) := by
  have inv : StoreInv rtCache version s := by
    induction h with
    | refl => exact storeInit_inv rtCache version n d
    | tail hr hs ih => exact storeInv_step _ _ _ _ ih hs
  have hdesc : ∀ t ∈ s.tasks, t.desc = d := by
    refine storeReach_desc rtCache version d h ?_
    intro t ht
    rw [List.eq_of_mem_replicate ht]
  have hlen : s.tasks.length = n := by
    have := storeReach_len rtCache version h
    simpa [storeInit] using this
  constructor
  · have hmono : s.tasks.countP (fun t => isExtracting t.status) ≤
        s.tasks.countP (fun t => isBody t.status) := by
      rw [List.countP_eq_length_filter, List.countP_eq_length_filter]
      apply length_filter_le_of_imp
      intro t _ hp
      obtain ⟨td, ts⟩ := t
      cases ts <;> simp_all [isExtracting, isBody]
    have := inv.body_le_one
    omega
  · intro hall hn
    have hde0 : ∀ p, s.tasks.countP
        (fun t => isDE t.status && decide (runtimeCachePath rtCache t.desc = p)) = 0 := by
      intro p
      rw [List.countP_eq_zero]
      intro t htm hbt
      have hdt := hall t htm
      obtain ⟨td, ts⟩ := t
      cases ts <;> simp_all [isDE, isDone]
    have hcnt : ∀ p, s.downloads.count p = s.extracts.count p := by
      intro p
      have := inv.dl_count p
      rw [hde0 p] at this
      omega
    have hne : s.tasks ≠ [] := by
      apply List.ne_nil_of_length_pos
      omega
    obtain ⟨t0, ht0⟩ := List.exists_mem_of_ne_nil s.tasks hne
    obtain ⟨r0, hr0⟩ := (isDone_iff t0.status).mp (hall t0 ht0)
    obtain ⟨hr0eq, hr0mem⟩ := inv.done_ok t0 ht0 r0 hr0
    rw [hdesc t0 ht0] at hr0mem
    rw [inv.cache_eq] at hr0mem
    have hqex : 0 < s.extracts.count (runtimeCachePath rtCache d) :=
      List.count_pos_iff.mpr hr0mem
    have hqdl : runtimeCachePath rtCache d ∈ s.downloads := by
      have := hcnt (runtimeCachePath rtCache d)
      exact List.count_pos_iff.mp (by omega)
    have halldl : ∀ p ∈ s.downloads, p = runtimeCachePath rtCache d := by
      intro p hp
      obtain ⟨t1, ht1, hp1⟩ := List.mem_map.mp (inv.dl_paths p hp)
      rw [← hp1, hdesc t1 ht1]
    have hdl : s.downloads = [runtimeCachePath rtCache d] :=
      eq_singleton_of_nodup_all_eq _ _ inv.dl_nodup halldl hqdl
    have hext : s.extracts = [runtimeCachePath rtCache d] := by
      apply List.perm_singleton.mp
      apply List.perm_iff_count.mpr
      intro a
      rw [← hcnt a, hdl]
    refine ⟨hdl, hext, ?_⟩
    intro t htm
    obtain ⟨r1, hr1⟩ := (isDone_iff t.status).mp (hall t htm)
    obtain ⟨hreq, -⟩ := inv.done_ok t htm r1 hr1
    rw [hr1, hreq, hdesc t htm]

/-- Witness for C1: one caller against a cold store runs
acquire–download–extract and ends with exactly one download, one
extraction, and the handle path returned. -/
theorem downloadRelease_single_download_and_extract_witness :
    witFinal.downloads = [runtimeCachePath "/rc" witBinary] ∧
    witFinal.extracts = [runtimeCachePath "/rc" witBinary] ∧
    ∀ t ∈ witFinal.tasks,
      t.status = .done (runtimeHandlePath "/rc" witBinary "11.0.8+10") := by
  have hreach : StoreReach "/rc" "11.0.8+10" (storeInit 1 witBinary) witFinal :=
    StoreReach.tail (StoreReach.tail (StoreReach.tail (StoreReach.tail
      (StoreReach.refl _)
      (StoreStep.acquire _ 0 witBinary rfl rfl))
      (StoreStep.beginDownload _ 0 witBinary rfl rfl rfl))
      (StoreStep.beginExtract _ 0 witBinary rfl rfl))
      (StoreStep.finishExtract _ 0 witBinary rfl rfl)
  exact (downloadRelease_single_download_and_extract "/rc" "11.0.8+10" 1 witBinary
    witFinal hreach).2 (by decide) (by decide)

/-! ## C2 — version-token validation -/

/-- The plan `requestPlan` with every field but the version held valid and fixed,
reduced to its version checks. -/
theorem requestPlan_fixed (v : String) :
    requestPlan "linux" "x64" v "" "hotspot" ["java.base"] [] =
      (if versionCheckMatch v = true then
        match getMajorVersion v with
        | none => Except.error ValidationError.invalidVersion
        | some major =>
          if major < 9 then Except.error ValidationError.invalidVersion
          else Except.ok ⟨"x64", "linux", "hotspot", v, "little", ["java.base"], []⟩
      else Except.error ValidationError.invalidVersion) := by
  unfold requestPlan
  rw [if_neg (by decide), if_neg (by decide), if_neg (by decide), if_neg (by decide)]
  rw [show resolveEndian "" "x64" = Except.ok "little" from by decide]
  simp only
  rw [if_neg (by decide)]
  by_cases hv : versionCheckMatch v = true
  · rw [if_neg (by simp [hv]), if_pos hv]
  · rw [if_pos (by simp [hv]), if_neg (by simp [hv])]

/-- C2 (counterexample): the alias token `"lts"` is one of the three
aliases named by the claim, yet request validation rejects it as
`InvalidVersion` — the alias disjunct of the claim does not hold of
`handleRequest` in src/jlink.go, which matches every version token against
`versionCheck` with no alias handling. -/
theorem versionValidation_rejects_lts_alias :
    versionAliases.contains "lts" = true ∧
    versionAccepted "lts" = false ∧
    requestPlan "linux" "x64" "lts" "" "hotspot" ["java.base"] [] =
      .error .invalidVersion ∧
    ¬ (versionAccepted "lts" = true ↔
        ((specNumericGrammar "lts" = true ∧ majorAtLeast9 "lts" = true) ∨
          "lts" ∈ versionAliases)) := by
  refine ⟨by decide, by decide, by decide, ?_⟩
  intro h
  exact absurd (h.mpr (Or.inr (by decide))) (by decide)

/-- C2 (amended): with every other request field valid, a version token is
accepted if and only if it matches the `versionCheck` regex (numeric
grammar whose dot-groups consist of no-leading-zero components, a zero
component appearing only before a later nonzero one) and its parsed major
version is at least 9; every other token — the alias tokens `lts`, `ea`,
`ga` included — is rejected as `InvalidVersion` before any release lookup
is planned. -/
theorem versionValidation_numeric_only (v : String) :
    (versionAccepted v = true ↔
      (versionCheckMatch v = true ∧ majorAtLeast9 v = true)) ∧
    (¬ (versionCheckMatch v = true ∧ majorAtLeast9 v = true) →
      requestPlan "linux" "x64" v "" "hotspot" ["java.base"] [] =
        .error .invalidVersion) := by
  have hfix := requestPlan_fixed v
  constructor
  · unfold versionAccepted
    rw [hfix]
    by_cases hv : versionCheckMatch v = true
    · rw [if_pos hv]
      cases hm : getMajorVersion v with
      | none => simp [Except.toBool, majorAtLeast9, hm, hv]
      | some m =>
        by_cases h9 : m < 9
        · simp only [Except.toBool, majorAtLeast9, hm, hv, if_pos h9]
          constructor
          · intro h; cases h
          · rintro ⟨-, h⟩
            have := of_decide_eq_true h
            omega
        · simp only [Except.toBool, majorAtLeast9, hm, hv, if_neg h9]
          constructor
          · intro _
            exact ⟨trivial, decide_eq_true (by omega)⟩
          · intro _; trivial
    · simp [Except.toBool, hv]
  · intro hrej
    rw [hfix]
    by_cases hv : versionCheckMatch v = true
    · rw [if_pos hv]
      cases hm : getMajorVersion v with
      | none => rfl
      | some m =>
        have h9 : m < 9 := by
          by_contra hge
          exact hrej ⟨hv, by simp only [majorAtLeast9, hm]; exact decide_eq_true (by omega)⟩
        simp only [if_pos h9]
    · rw [if_neg hv]

/-- Witness for C2 at the accepted token `11.0.8+10`, the rejected token
`9a.1`, and the regex-matching token `99999999999999999999` whose major
overflows 64-bit `int`, so `strconv.Atoi` errors and the request is
rejected. -/
theorem versionValidation_numeric_only_witness :
    (versionAccepted "11.0.8+10" = true ↔
      (versionCheckMatch "11.0.8+10" = true ∧ majorAtLeast9 "11.0.8+10" = true)) ∧
    requestPlan "linux" "x64" "9a.1" "" "hotspot" ["java.base"] [] =
      .error .invalidVersion ∧
    (versionCheckMatch "99999999999999999999" = true ∧
      requestPlan "linux" "x64" "99999999999999999999" "" "hotspot" ["java.base"] [] =
        .error .invalidVersion) :=
  ⟨(versionValidation_numeric_only "11.0.8+10").1,
   (versionValidation_numeric_only "9a.1").2 (by decide),
   by decide,
   (versionValidation_numeric_only "99999999999999999999").2 (by decide)⟩

/-- Witness for C3 at a concrete release and empty cache. -/
theorem downloadRelease_failure_cleanup_witness :
    (downloadRelease "/rc" []
        ⟨"x64", "hotspot", "linux", ⟨"jdk.tar.gz", "http://x"⟩⟩ "11.0.8+10"
        (.status 200) true false =
      ([], [.createdDir (runtimeCachePath "/rc" ⟨"x64", "hotspot", "linux", ⟨"jdk.tar.gz", "http://x"⟩⟩),
            .removedDir (runtimeCachePath "/rc" ⟨"x64", "hotspot", "linux", ⟨"jdk.tar.gz", "http://x"⟩⟩)],
       .error .extractFailed)) ∧
    (downloadRelease "/rc" []
        ⟨"x64", "hotspot", "linux", ⟨"jdk.tar.gz", "http://x"⟩⟩ "11.0.8+10"
        (.status 404) true true =
      ([], [], .error (.abnormalStatus 404))) :=
  ⟨(downloadRelease_failure_cleanup "/rc" []
      ⟨"x64", "hotspot", "linux", ⟨"jdk.tar.gz", "http://x"⟩⟩ "11.0.8+10" (by decide)).1,
   (downloadRelease_failure_cleanup "/rc" []
      ⟨"x64", "hotspot", "linux", ⟨"jdk.tar.gz", "http://x"⟩⟩ "11.0.8+10" (by decide)).2.2.2.1
      404 (by decide) true true⟩

end Jlink
